import Mathlib

/-!
# A verification development for the 3D software rasterizer

Shallow embedding of `src/triangle.c` (scanline triangle fill) and of the
per-frame pipeline of `src/main.c` (`project`, `update`), with the properties
of the natural-language specification stated and settled against it.

Conventions of the embedding:

* C `int` is `Int`; overflow is outside the model.
* C `float` arithmetic is taken exactly, except in `split_x_binary32`, where
  every operation is rounded to binary32.  In the rasterizer a `float` is a
  `cfloat`, either a rational `some q` or `none` for a non-finite value
  (the result of a floating-point division by zero and whatever is computed
  from it).  Converting a non-finite `float` to `int` is undefined in C, so
  a rasterizer run that does it has `lines = none`.
* `draw_line` is a primitive of the display module: a run of the rasterizer
  is described by the list of `draw_line` calls it makes, in order, together
  with the list of divisors of the floating-point divisions it performs, in
  order.
* `uint32_t` colours are natural numbers; no arithmetic is done on them.
* The functions of the vector library (`vector.c`) and the declarations of
  `display.h` and `mesh.h` are not part of the sources at hand; what `update`
  needs of them is modelled from the specification or taken as a parameter,
  as said at each definition.
-/

namespace Rasterizer

/-! ## Floating point, taken exactly -/

/-- A C `float` taken exactly: `some q` is the finite value `q`, `none` is a
non-finite value (infinity or NaN). -/
abbrev cfloat := Option ℚ

/-- Conversion `(float) n` of an `int`. -/
def float_of_int (n : ℤ) : cfloat := some (n : ℚ)

/-- Floating-point addition: finite plus finite is the exact sum, anything
non-finite stays non-finite. -/
def float_add : cfloat → cfloat → cfloat
  | some a, some b => some (a + b)
  | _, _ => none

/-- Floating-point division: a zero divisor gives a non-finite value. -/
def float_div : cfloat → cfloat → cfloat
  | some a, some b => if b = 0 then none else some (a / b)
  | _, _ => none

/-- Truncation toward zero of a rational. -/
def trunc (q : ℚ) : ℤ := if 0 ≤ q then ⌊q⌋ else ⌈q⌉

/-- Conversion of a `float` to `int` (as happens when a `float` is passed to
an `int` parameter or assigned to an `int`): truncation toward zero; the
conversion of a non-finite value is undefined (`none`). -/
def float_to_int : cfloat → Option ℤ
  | some q => some (trunc q)
  | none => none

/-! ## Floating point, rounded to binary32 -/

/-- Rounding of a rational to the nearest integer, ties to the even
integer. -/
def round_half_even (q : ℚ) : ℤ :=
  if q - ⌊q⌋ < 1 / 2 then ⌊q⌋
  else if 1 / 2 < q - ⌊q⌋ then ⌊q⌋ + 1
  else if ⌊q⌋ % 2 = 0 then ⌊q⌋ else ⌊q⌋ + 1

/-- The exponent `k` of the step `2 ^ k` of the binary32 numbers around a
non-zero `q`: with `2 ^ e <= |q| < 2 ^ (e + 1)` it is `e - 23` (24 significant
bits), and `-149` in the subnormal range. -/
def binary32_step_exponent (q : ℚ) : ℤ := max (Int.log 2 |q| - 23) (-149)

/-- The magnitude of a non-zero `q` rounded to the binary32 grid around it,
to nearest, ties to even. -/
def binary32_magnitude (q : ℚ) : ℚ :=
  (round_half_even (|q| / 2 ^ binary32_step_exponent q) : ℚ) * 2 ^ binary32_step_exponent q

/-- The binary32 value of the exact result `q` of a `float` operation: `q`
rounded to nearest, ties to even; a result whose rounded magnitude reaches
`2 ^ 128` is infinite (`none`).  The sign of a zero is not recorded. -/
def round_binary32 (q : ℚ) : cfloat :=
  if q = 0 then some 0
  else if (2 : ℚ) ^ (128 : ℤ) ≤ binary32_magnitude q then none
  else some (if 0 < q then binary32_magnitude q else -binary32_magnitude q)

/-- Conversion `(float) n` of an `int`, rounded to binary32. -/
def float32_of_int (n : ℤ) : cfloat := round_binary32 (n : ℚ)

/-- Addition of two `float`, rounded to binary32. -/
def float32_add : cfloat → cfloat → cfloat
  | some a, some b => round_binary32 (a + b)
  | _, _ => none

/-- Division of two `float`, rounded to binary32; a zero divisor gives a
non-finite value. -/
def float32_div : cfloat → cfloat → cfloat
  | some a, some b => if b = 0 then none else round_binary32 (a / b)
  | _, _ => none

/-! ## `triangle.c` -/

/-- One call `draw_line(x0, y0, x1, y1, color)`. -/
structure draw_line_call where
  x0 : ℤ
  y0 : ℤ
  x1 : ℤ
  y1 : ℤ
  color : ℕ
  deriving DecidableEq

/-- What a run of a fill routine does: the divisors of its floating-point
divisions in execution order, and the `draw_line` calls in execution order
(`none` when the run reaches an undefined `float` to `int` conversion). -/
structure fill_result where
  divisors : List ℤ
  lines : Option (List draw_line_call)
  deriving DecidableEq

/-- `int_swap(&a, &b)`: the values of `a` and `b` after the call. -/
def int_swap (a b : ℤ) : ℤ × ℤ := (b, a)

/-- The loop of `fill_flat_bottom_triangle`,
`for (y = y0; y <= y2; ++y) { draw_line(x_start, y, x_end, y, color);
x_start += inv_slope_1; x_end += inv_slope_2; }`, with the number of
iterations still to run as first argument. -/
def fill_flat_bottom_loop (inv_slope_1 inv_slope_2 : cfloat) (color : ℕ) :
    ℕ → cfloat → cfloat → ℤ → Option (List draw_line_call)
  | 0, _, _, _ => some []
  | n + 1, x_start, x_end, y =>
    match float_to_int x_start, float_to_int x_end with
    | some a, some b =>
      (fill_flat_bottom_loop inv_slope_1 inv_slope_2 color n
        (float_add x_start inv_slope_1) (float_add x_end inv_slope_2) (y + 1)).map
        (fun rest => draw_line_call.mk a y b y color :: rest)
    | _, _ => none

/-- `fill_flat_bottom_triangle(x0, y0, x1, y1, x2, y2, color)`.  The loop
`for (y = y0; y <= y2; ++y)` runs `y2 - y0 + 1` times (not at all when that
is negative). -/
def fill_flat_bottom_triangle (x0 y0 x1 y1 x2 y2 : ℤ) (color : ℕ) : fill_result :=
  let inv_slope_1 := float_div (float_of_int (x1 - x0)) (float_of_int (y1 - y0))
  let inv_slope_2 := float_div (float_of_int (x2 - x0)) (float_of_int (y2 - y0))
  let x_start := float_of_int x0
  let x_end := float_of_int x0
  { divisors := [y1 - y0, y2 - y0]
    lines := fill_flat_bottom_loop inv_slope_1 inv_slope_2 color
      (y2 - y0 + 1).toNat x_start x_end y0 }

/-- The loop of `fill_flat_top_triangle`,
`for (y = y2; y >= y0; --y) { draw_line(x_start, y, x_end, y, color);
x_start += inv_slope_1; x_end += inv_slope_2; }`, with the number of
iterations still to run as first argument. -/
def fill_flat_top_loop (inv_slope_1 inv_slope_2 : cfloat) (color : ℕ) :
    ℕ → cfloat → cfloat → ℤ → Option (List draw_line_call)
  | 0, _, _, _ => some []
  | n + 1, x_start, x_end, y =>
    match float_to_int x_start, float_to_int x_end with
    | some a, some b =>
      (fill_flat_top_loop inv_slope_1 inv_slope_2 color n
        (float_add x_start inv_slope_1) (float_add x_end inv_slope_2) (y - 1)).map
        (fun rest => draw_line_call.mk a y b y color :: rest)
    | _, _ => none

/-- `fill_flat_top_triangle(x0, y0, x1, y1, x2, y2, color)`.  The loop
`for (y = y2; y >= y0; --y)` runs `y2 - y0 + 1` times (not at all when that
is negative). -/
def fill_flat_top_triangle (x0 y0 x1 y1 x2 y2 : ℤ) (color : ℕ) : fill_result :=
  let inv_slope_1 := float_div (float_of_int (x0 - x2)) (float_of_int (y2 - y0))
  let inv_slope_2 := float_div (float_of_int (x1 - x2)) (float_of_int (y2 - y1))
  let x_start := float_of_int x2
  let x_end := float_of_int x2
  { divisors := [y2 - y0, y2 - y1]
    lines := fill_flat_top_loop inv_slope_1 inv_slope_2 color
      (y2 - y0 + 1).toNat x_start x_end y2 }

/-- The six local variables `x0, y0, x1, y1, x2, y2` of
`draw_filled_triangle`. -/
structure vertices where
  x0 : ℤ
  y0 : ℤ
  x1 : ℤ
  y1 : ℤ
  x2 : ℤ
  y2 : ℤ
  deriving DecidableEq

/-- `int_swap(&y0, &y1); int_swap(&x0, &x1);` -/
def swap_0_1 (v : vertices) : vertices :=
  { v with
    y0 := (int_swap v.y0 v.y1).1, y1 := (int_swap v.y0 v.y1).2,
    x0 := (int_swap v.x0 v.x1).1, x1 := (int_swap v.x0 v.x1).2 }

/-- `int_swap(&y1, &y2); int_swap(&x1, &x2);` -/
def swap_1_2 (v : vertices) : vertices :=
  { v with
    y1 := (int_swap v.y1 v.y2).1, y2 := (int_swap v.y1 v.y2).2,
    x1 := (int_swap v.x1 v.x2).1, x2 := (int_swap v.x1 v.x2).2 }

/-- The three compare-and-swap steps at the start of
`draw_filled_triangle`. -/
def sort_vertices (v : vertices) : vertices :=
  let v := if v.y0 > v.y1 then swap_0_1 v else v
  let v := if v.y1 > v.y2 then swap_1_2 v else v
  let v := if v.y0 > v.y1 then swap_0_1 v else v
  v

/-- The vertex number `k` (`0`, `1` or `2`) held by the six variables, as the
pair of its `x` and its `y`. -/
def vertices.vertex (v : vertices) : Fin 3 → ℤ × ℤ
  | 0 => (v.x0, v.y0)
  | 1 => (v.x1, v.y1)
  | 2 => (v.x2, v.y2)

/-- The split point of the general case,
`int Mx = ((float)((x2 - x0) * (y1 - y0)) / (float)(y2 - y0)) + x0;`, with the
`float` operations taken exactly (`split_x_binary32` is the same line with
every operation rounded). -/
def split_x (v : vertices) : Option ℤ :=
  float_to_int
    (float_add
      (float_div (float_of_int ((v.x2 - v.x0) * (v.y1 - v.y0))) (float_of_int (v.y2 - v.y0)))
      (float_of_int v.x0))

/-- The split point of the general case,
`int Mx = ((float)((x2 - x0) * (y1 - y0)) / (float)(y2 - y0)) + x0;`, as the
machine computes it: the product in `int`, its conversion, the conversion of
the divisor, the division, the conversion of `x0` and the addition each
rounded to binary32, then the truncation of the conversion to `int`. -/
def split_x_binary32 (v : vertices) : Option ℤ :=
  float_to_int
    (float32_add
      (float32_div (float32_of_int ((v.x2 - v.x0) * (v.y1 - v.y0)))
        (float32_of_int (v.y2 - v.y0)))
      (float32_of_int v.x0))

/-- One fill followed by another. -/
def fill_result.append (a b : fill_result) : fill_result :=
  { divisors := a.divisors ++ b.divisors
    lines :=
      match a.lines, b.lines with
      | some l1, some l2 => some (l1 ++ l2)
      | _, _ => none }

/-- `draw_filled_triangle(x0, y0, x1, y1, x2, y2, color)`. -/
def draw_filled_triangle (x0 y0 x1 y1 x2 y2 : ℤ) (color : ℕ) : fill_result :=
  let v := sort_vertices ⟨x0, y0, x1, y1, x2, y2⟩
  if v.y1 = v.y2 then
    fill_flat_bottom_triangle v.x0 v.y0 v.x1 v.y1 v.x2 v.y2 color
  else if v.y0 = v.y1 then
    fill_flat_top_triangle v.x0 v.y0 v.x1 v.y1 v.x2 v.y2 color
  else
    let My := v.y1
    match split_x v with
    | none => { divisors := [v.y2 - v.y0], lines := none }
    | some Mx =>
      fill_result.append { divisors := [v.y2 - v.y0], lines := some [] }
        (fill_result.append
          (fill_flat_bottom_triangle v.x0 v.y0 v.x1 v.y1 Mx My color)
          (fill_flat_top_triangle v.x1 v.y1 Mx My v.x2 v.y2 color))

/-- The closed form of a scanline, used to state what the fill loops emit:
the line `k` rows after the start of a fill whose boundaries start at `a` and
`b` and move by `p` and `q` per row, the row moving by `dy`. -/
def scanline (a b p q : ℚ) (y dy : ℤ) (color : ℕ) (k : ℕ) : draw_line_call :=
  { x0 := trunc (a + k * p), y0 := y + k * dy, x1 := trunc (b + k * q), y1 := y + k * dy,
    color := color }

/-- `vec2_t`: two `float` components, taken exactly in `K`. -/
structure vec2_t (K : Type) where
  x : K
  y : K
  deriving DecidableEq

/-- `triangle_t`: the record `update` pushes for a face, three screen points,
the colour of the face and its average depth. -/
structure triangle_t (K : Type) where
  points : vec2_t K × vec2_t K × vec2_t K
  color : ℕ
  avg_depth : K
  deriving DecidableEq

section depth_sort

variable {K : Type} [LinearOrder K]

/-- The body of the inner loop of the depth sort of `update`:
`if (triangles_to_render[i].avg_depth < triangles_to_render[j].avg_depth)`
exchange the two entries.  The loops only run it with `i` and `j` below the
length, so the entries exist. -/
def sort_compare_swap (ts : List (triangle_t K)) (i j : ℕ) : List (triangle_t K) :=
  match ts[i]?, ts[j]? with
  | some ti, some tj =>
    if ti.avg_depth < tj.avg_depth then (ts.set i tj).set j ti else ts
  | _, _ => ts

/-- The inner loop `for (int j = i; j < num_triangles; ++j)`, from the number
of iterations still to run, the current `j` and the current array. -/
def sort_inner_loop (i : ℕ) : ℕ → ℕ → List (triangle_t K) → List (triangle_t K)
  | 0, _, ts => ts
  | k + 1, j, ts => sort_inner_loop i k (j + 1) (sort_compare_swap ts i j)

/-- The outer loop `for (int i = 0; i < num_triangles; ++i)`, from the number
of iterations still to run, the current `i` and the current array; the inner
loop started at `j = i` runs `num_triangles - i` times. -/
def sort_outer_loop (num_triangles : ℕ) : ℕ → ℕ → List (triangle_t K) → List (triangle_t K)
  | 0, _, ts => ts
  | k + 1, i, ts =>
    sort_outer_loop num_triangles k (i + 1) (sort_inner_loop i (num_triangles - i) i ts)

/-- The depth sort at the end of `update` (lines 188 to 198 of `main.c`). -/
def depth_sort (ts : List (triangle_t K)) : List (triangle_t K) :=
  let num_triangles := ts.length
  sort_outer_loop num_triangles num_triangles 0 ts

/-- Position `a` of `ts` holds a triangle at least as deep as the one at position `b`. -/
def dominates (ts : List (triangle_t K)) (a b : ℕ) : Prop :=
  ∀ x y, ts[a]? = some x → ts[b]? = some y → y.avg_depth ≤ x.avg_depth

/-- The invariant of the outer loop: every position before `i` holds a triangle
at least as deep as every triangle after it. -/
def sorted_upto (i : ℕ) (ts : List (triangle_t K)) : Prop :=
  ∀ a b, a < i → a < b → dominates ts a b

/-- The pairs `(i, j)` on which the inner loop started at `j` runs the
compare-and-swap, `k` iterations being left. -/
def sort_steps_inner (i : ℕ) : ℕ → ℕ → List (ℕ × ℕ)
  | 0, _ => []
  | k + 1, j => (i, j) :: sort_steps_inner i k (j + 1)

/-- The pairs `(i, j)` on which the outer loop at `i` runs the
compare-and-swap, `k` iterations being left. -/
def sort_steps_outer (num_triangles : ℕ) : ℕ → ℕ → List (ℕ × ℕ)
  | 0, _ => []
  | k + 1, i =>
    sort_steps_inner i (num_triangles - i) i ++ sort_steps_outer num_triangles k (i + 1)

/-- The pairs `(i, j)` on which the depth sort of a list of `num_triangles`
triangles runs its compare-and-swap, in execution order. -/
def sort_steps (num_triangles : ℕ) : List (ℕ × ℕ) :=
  sort_steps_outer num_triangles num_triangles 0

end depth_sort

/-! ## `main.c` -/

/-- `vec3_t`: three `float` components, taken in a field `K`. -/
structure vec3_t (K : Type) where
  x : K
  y : K
  z : K
  deriving DecidableEq

/-- `face_t`: three 1-based vertex indices and a colour. -/
structure face_t where
  a : ℤ
  b : ℤ
  c : ℤ
  color : ℕ
  deriving DecidableEq

/-- `mesh_t`: the global `mesh`. -/
structure mesh_t (K : Type) where
  vertices : List (vec3_t K)
  faces : List face_t
  rotation : vec3_t K

/-- The culling methods that `main.c` uses. -/
inductive cull_method_t where
  | CULL_NONE
  | CULL_BACKFACE
  deriving DecidableEq

/-- The render methods that `main.c` uses. -/
inductive render_method_t where
  | RENDER_WIRE
  | RENDER_WIRE_VERTEX
  | RENDER_FILL_TRIANGLE
  | RENDER_FILL_TRIANGLE_WIRE
  deriving DecidableEq

/-- The functions of the vector library that `update` calls and whose code
needs real-number functions (square root, sine, cosine): they are parameters
of the embedding. -/
structure vector_lib (K : Type) where
  sqrt : K → K
  vec3_rotate_x : vec3_t K → K → vec3_t K
  vec3_rotate_y : vec3_t K → K → vec3_t K
  vec3_rotate_z : vec3_t K → K → vec3_t K

/-- The global variables that `update` reads or writes. -/
structure state (K : Type) where
  triangles_to_render : List (triangle_t K)
  previous_frame_time : ℤ
  camera_position : vec3_t K
  fov_factor : K
  mesh : mesh_t K
  cull_method : cull_method_t
  render_method : render_method_t
  window_width : ℤ
  window_height : ℤ

section pipeline

variable {K : Type} [LinearOrderedField K]

/-- Modelled from the spec: `vec3_sub` of the vector library (subtraction of
3-component vectors), whose code is not part of the sources at hand. -/
def vec3_sub (a b : vec3_t K) : vec3_t K :=
  { x := a.x - b.x, y := a.y - b.y, z := a.z - b.z }

/-- Modelled from the spec: `vec3_cross` of the vector library (cross product
of 3-component vectors), whose code is not part of the sources at hand. -/
def vec3_cross (a b : vec3_t K) : vec3_t K :=
  { x := a.y * b.z - a.z * b.y
    y := a.z * b.x - a.x * b.z
    z := a.x * b.y - a.y * b.x }

/-- Modelled from the spec: `vec3_dot` of the vector library (dot product of
3-component vectors), whose code is not part of the sources at hand. -/
def vec3_dot (a b : vec3_t K) : K :=
  a.x * b.x + a.y * b.y + a.z * b.z

/-- Modelled from the spec: `vec3_normalize` of the vector library
(normalization: every component divided by the length of the vector), whose
code is not part of the sources at hand.  The value after the in-place call,
with the square root function as an argument.  In the field `K` a division by a zero length gives zero components, where the
C `float`s are NaN; a NaN dot product is not `< 0`, and neither is zero. -/
def vec3_normalize (sqrt : K → K) (v : vec3_t K) : vec3_t K :=
  let length := sqrt (v.x * v.x + v.y * v.y + v.z * v.z)
  { x := v.x / length, y := v.y / length, z := v.z / length }

/-- `project(point)`, with the global `fov_factor` as an argument. -/
def project (fov_factor : K) (point : vec3_t K) : vec2_t K :=
  { x := (fov_factor * point.x) / point.z
    y := (fov_factor * point.y) / point.z }

/-- `mesh.vertices[i]`: reading outside the array is undefined (`none`). -/
def vertex_at (vertices : List (vec3_t K)) (i : ℤ) : Option (vec3_t K) :=
  if 0 ≤ i then vertices[i.toNat]? else none

/-- The transformations `update` applies to one face vertex: the three
rotations, then `transformed_vertex.z += 5`. -/
def transform_vertex (lib : vector_lib K) (rotation : vec3_t K) (v : vec3_t K) : vec3_t K :=
  let transformed_vertex := lib.vec3_rotate_x v rotation.x
  let transformed_vertex := lib.vec3_rotate_y transformed_vertex rotation.y
  let transformed_vertex := lib.vec3_rotate_z transformed_vertex rotation.z
  { transformed_vertex with z := transformed_vertex.z + 5 }

/-- The value `dot_normal_camera` that the backface test of `update` computes
from the three transformed vertices of a face, with the square root function
of the vector library as an argument. -/
def dot_normal_camera (sqrt : K → K) (camera_position : vec3_t K)
    (transformed_vertices : vec3_t K × vec3_t K × vec3_t K) : K :=
  let vertex_a := transformed_vertices.1
  let vertex_b := transformed_vertices.2.1
  let vertex_c := transformed_vertices.2.2
  let vector_ab := vec3_normalize sqrt (vec3_sub vertex_b vertex_a)
  let vector_ac := vec3_normalize sqrt (vec3_sub vertex_c vertex_a)
  let normal := vec3_normalize sqrt (vec3_cross vector_ab vector_ac)
  let camera_ray := vec3_sub camera_position vertex_a
  vec3_dot normal camera_ray

/-- The screen point of one transformed vertex: `project`, then
`+= (window_width / 2)` and `+= (window_height / 2)`, the halves being `int`
divisions. -/
def projected_point (fov_factor : K) (window_width window_height : ℤ) (v : vec3_t K) :
    vec2_t K :=
  let p := project fov_factor v
  { x := p.x + ((Int.tdiv window_width 2 : ℤ) : K)
    y := p.y + ((Int.tdiv window_height 2 : ℤ) : K) }

/-- The part of the body of the face loop of `update` that follows the
transformation of the vertices: the backface test (`none` is its `continue`),
the projection and the triangle record that is pushed.  `sqrt` is the square
root function of the vector library. -/
def face_triangle (sqrt : K → K) (s : state K) (color : ℕ)
    (transformed_vertices : vec3_t K × vec3_t K × vec3_t K) : Option (triangle_t K) :=
  if s.cull_method = cull_method_t.CULL_BACKFACE ∧
      dot_normal_camera sqrt s.camera_position transformed_vertices < 0 then
    none
  else
    let projected_points :=
      (projected_point s.fov_factor s.window_width s.window_height transformed_vertices.1,
       projected_point s.fov_factor s.window_width s.window_height transformed_vertices.2.1,
       projected_point s.fov_factor s.window_width s.window_height transformed_vertices.2.2)
    let avg_depth :=
      (transformed_vertices.1.z + transformed_vertices.2.1.z + transformed_vertices.2.2.z) / 3
    some { points := projected_points, color := color, avg_depth := avg_depth }

/-- The three transformed vertices of a face (`none` when an index is outside
`mesh.vertices`). -/
def face_transformed_vertices (lib : vector_lib K) (mesh : mesh_t K) (mesh_face : face_t) :
    Option (vec3_t K × vec3_t K × vec3_t K) :=
  match vertex_at mesh.vertices (mesh_face.a - 1), vertex_at mesh.vertices (mesh_face.b - 1),
      vertex_at mesh.vertices (mesh_face.c - 1) with
  | some va, some vb, some vc =>
    some (transform_vertex lib mesh.rotation va, transform_vertex lib mesh.rotation vb,
      transform_vertex lib mesh.rotation vc)
  | _, _, _ => none

/-- The face loop of `update`, from the faces still to visit and the triangles
pushed so far. -/
def face_loop (lib : vector_lib K) (s : state K) :
    List face_t → List (triangle_t K) → Option (List (triangle_t K))
  | [], triangles => some triangles
  | mesh_face :: rest, triangles =>
    match face_transformed_vertices lib s.mesh mesh_face with
    | none => none
    | some transformed_vertices =>
      match face_triangle lib.sqrt s mesh_face.color transformed_vertices with
      | none => face_loop lib s rest triangles
      | some projected_triangle => face_loop lib s rest (triangles ++ [projected_triangle])

/-- Conversion of an integer to `int` (32 bits, two's complement). -/
def to_int32 (n : ℤ) : ℤ := (n + 2 ^ 31) % 2 ^ 32 - 2 ^ 31

/-- `int time_to_wait = FRAME_TARGET_TIME - (SDL_GetTicks() - previous_frame_time);`
The subtraction is made in `Uint32` and the result converted to `int`. -/
def time_to_wait (FRAME_TARGET_TIME : ℤ) (ticks : ℕ) (previous_frame_time : ℤ) : ℤ :=
  to_int32 (FRAME_TARGET_TIME - ((ticks : ℤ) - previous_frame_time))

/-- What one call of `update` does: the new values of the globals and the
argument of the call of `SDL_Delay`, if it is called. -/
structure update_result (K : Type) where
  state : state K
  delay : Option ℤ

/-- `update()`.  `FRAME_TARGET_TIME` is the constant of that name,
`ticks_before` and `ticks_after` are the values the two calls of
`SDL_GetTicks` return.  The result is `none` when a face index is outside
`mesh.vertices`. -/
def update (lib : vector_lib K) (FRAME_TARGET_TIME : ℤ) (ticks_before ticks_after : ℕ)
    (s : state K) : Option (update_result K) :=
  let time_to_wait := time_to_wait FRAME_TARGET_TIME ticks_before s.previous_frame_time
  let delay := if time_to_wait > 0 ∧ time_to_wait ≤ FRAME_TARGET_TIME then some time_to_wait
    else none
  let s := { s with previous_frame_time := to_int32 ticks_after }
  let s := { s with triangles_to_render := [] }
  let s := { s with mesh := { s.mesh with rotation :=
    { x := s.mesh.rotation.x + 1 / 100
      y := s.mesh.rotation.y + 1 / 100
      z := s.mesh.rotation.z + 2 / 100 } } }
  match face_loop lib s s.mesh.faces s.triangles_to_render with
  | none => none
  | some triangles =>
    some { state := { s with triangles_to_render := depth_sort triangles }, delay := delay }

/-- The faces of the mesh only name vertices that exist. -/
def valid_faces (mesh : mesh_t K) : Prop :=
  ∀ f ∈ mesh.faces,
    (1 ≤ f.a ∧ f.a ≤ mesh.vertices.length) ∧ (1 ≤ f.b ∧ f.b ≤ mesh.vertices.length) ∧
    (1 ≤ f.c ∧ f.c ≤ mesh.vertices.length)

end pipeline

/-- What the main loop feeds into one frame: the two modes as `process_input`
leaves them, and the values of the two calls of `SDL_GetTicks` in `update`. -/
structure frame_input where
  cull_method : cull_method_t
  render_method : render_method_t
  ticks_before : ℕ
  ticks_after : ℕ

/-- Successive iterations of the main loop
`while (is_running) { process_input(); update(); render(); }`, as far as the
globals of `update` go: `process_input` may set `render_method` and
`cull_method`, `update` runs, and `render` writes none of the globals that
`update` reads (it frees `triangles_to_render`, which `update` resets first).
The result is `none` when a call of `update` reads outside `mesh.vertices`. -/
def run_frames {K : Type} [LinearOrderedField K] (lib : vector_lib K) (FRAME_TARGET_TIME : ℤ) :
    List frame_input → state K → Option (state K)
  | [], s => some s
  | f :: rest, s =>
    match update lib FRAME_TARGET_TIME f.ticks_before f.ticks_after
        { s with cull_method := f.cull_method, render_method := f.render_method } with
    | none => none
    | some r => run_frames lib FRAME_TARGET_TIME rest r.state

/-! ## Theorems -/

section depth_sort_theorems

variable {K : Type} [LinearOrder K]

theorem sort_compare_swap_length (ts : List (triangle_t K)) (i j : ℕ) :
    (sort_compare_swap ts i j).length = ts.length := by
  unfold sort_compare_swap
  split
  · split_ifs <;> simp
  · rfl

theorem sort_compare_swap_other (ts : List (triangle_t K)) (i j k : ℕ) (hi : k ≠ i) (hj : k ≠ j) :
    (sort_compare_swap ts i j)[k]? = ts[k]? := by
  unfold sort_compare_swap
  split
  · split_ifs
    · rw [List.getElem?_set, if_neg (Ne.symm hj), List.getElem?_set, if_neg (Ne.symm hi)]
    · rfl
  · rfl

/-- Every element of the list after a compare-and-swap at `i ≤ j` sitting at a
position `≥ i` was at a position `≥ i` before. -/
theorem sort_compare_swap_from (ts : List (triangle_t K)) (i j : ℕ) (hij : i ≤ j) (b : ℕ)
    (hb : i ≤ b) (y : triangle_t K) (hy : (sort_compare_swap ts i j)[b]? = some y) :
    ∃ b', i ≤ b' ∧ ts[b']? = some y := by
  unfold sort_compare_swap at hy
  split at hy
  · rename_i ti tj hti htj
    split_ifs at hy with hlt
    · rw [List.getElem?_set, List.getElem?_set] at hy
      by_cases h1 : j = b
      · rw [if_pos h1] at hy
        split_ifs at hy with h2
        · exact ⟨i, le_refl i, by rw [hti, ← hy]⟩
      · rw [if_neg h1] at hy
        by_cases h2 : i = b
        · rw [if_pos h2] at hy
          split_ifs at hy with h3
          · exact ⟨j, hij, by rw [htj, ← hy]⟩
        · rw [if_neg h2] at hy
          exact ⟨b, hb, hy⟩
    · exact ⟨b, hb, hy⟩
  · exact ⟨b, hb, hy⟩

theorem sort_compare_swap_dominates (ts : List (triangle_t K)) (i j : ℕ) (hij : i ≤ j)
    (h : ∀ b, i ≤ b → b < j → dominates ts i b) :
    ∀ b, i ≤ b → b < j + 1 → dominates (sort_compare_swap ts i j) i b := by
  intro b hb hbj
  unfold sort_compare_swap
  split
  · rename_i ti tj hti htj
    have hil : i < ts.length := (List.getElem?_eq_some_iff.1 hti).1
    have hjl : j < ts.length := (List.getElem?_eq_some_iff.1 htj).1
    split_ifs with hlt
    · have hne : i ≠ j := by
        rintro rfl
        rw [hti] at htj
        cases htj
        exact lt_irrefl _ hlt
      intro x y hx hy
      rw [List.getElem?_set, if_neg (Ne.symm hne), List.getElem?_set, if_pos rfl,
        if_pos hil] at hx
      cases hx
      rw [List.getElem?_set, List.getElem?_set] at hy
      by_cases h1 : j = b
      · rw [if_pos h1, if_pos (by simpa using hjl)] at hy
        cases hy
        exact le_of_lt hlt
      · rw [if_neg h1] at hy
        by_cases h2 : i = b
        · rw [if_pos h2, if_pos hil] at hy
          cases hy
          exact le_refl _
        · rw [if_neg h2] at hy
          have := h b hb (by omega) ti y hti hy
          exact le_trans this (le_of_lt hlt)
    · by_cases h1 : b = j
      · subst h1
        intro x y hx hy
        rw [hti] at hx
        rw [htj] at hy
        cases hx
        cases hy
        exact not_lt.1 hlt
      · exact h b hb (by omega)
  · rename_i hnone
    by_cases h1 : b = j
    · subst h1
      intro x y hx hy
      exact absurd hy (by
        intro hy
        exact hnone x y hx hy)
    · exact h b hb (by omega)

theorem sort_inner_loop_length (i : ℕ) (k : ℕ) :
    ∀ (j : ℕ) (ts : List (triangle_t K)), (sort_inner_loop i k j ts).length = ts.length := by
  induction k with
  | zero => intro j ts; rfl
  | succ k ih =>
    intro j ts
    rw [sort_inner_loop, ih, sort_compare_swap_length]

theorem sort_inner_loop_before (i : ℕ) (k : ℕ) :
    ∀ (j : ℕ) (ts : List (triangle_t K)), i ≤ j → ∀ a, a < i →
      (sort_inner_loop i k j ts)[a]? = ts[a]? := by
  induction k with
  | zero => intro j ts _ a _; rfl
  | succ k ih =>
    intro j ts hij a ha
    rw [sort_inner_loop, ih (j + 1) _ (by omega) a ha,
      sort_compare_swap_other ts i j a (by omega) (by omega)]

theorem sort_inner_loop_from (i : ℕ) (k : ℕ) :
    ∀ (j : ℕ) (ts : List (triangle_t K)), i ≤ j → ∀ b, i ≤ b → ∀ y,
      (sort_inner_loop i k j ts)[b]? = some y → ∃ b', i ≤ b' ∧ ts[b']? = some y := by
  induction k with
  | zero => intro j ts _ b hb y hy; exact ⟨b, hb, hy⟩
  | succ k ih =>
    intro j ts hij b hb y hy
    rw [sort_inner_loop] at hy
    obtain ⟨b1, hb1, hy1⟩ := ih (j + 1) _ (by omega) b hb y hy
    exact sort_compare_swap_from ts i j hij b1 hb1 y hy1

theorem sort_inner_loop_dominates (i : ℕ) (k : ℕ) :
    ∀ (j : ℕ) (ts : List (triangle_t K)), i ≤ j →
      (∀ b, i ≤ b → b < j → dominates ts i b) →
      ∀ b, i ≤ b → b < j + k → dominates (sort_inner_loop i k j ts) i b := by
  induction k with
  | zero => intro j ts _ h b hb hbj; exact h b hb (by omega)
  | succ k ih =>
    intro j ts hij h b hb hbj
    rw [sort_inner_loop]
    exact ih (j + 1) _ (by omega) (sort_compare_swap_dominates ts i j hij h) b hb (by omega)

theorem sort_inner_loop_sorted_upto (n i : ℕ) (ts : List (triangle_t K))
    (hn : ts.length = n) (h : sorted_upto i ts) :
    sorted_upto (i + 1) (sort_inner_loop i (n - i) i ts) := by
  intro a b ha hab x y hx hy
  by_cases hai : a < i
  · rw [sort_inner_loop_before i _ i ts (le_refl i) a hai] at hx
    by_cases hbi : b < i
    · rw [sort_inner_loop_before i _ i ts (le_refl i) b hbi] at hy
      exact h a b hai hab x y hx hy
    · obtain ⟨b', hb', hy'⟩ := sort_inner_loop_from i _ i ts (le_refl i) b (by omega) y hy
      exact h a b' hai (by omega) x y hx hy'
  · have hai' : a = i := by omega
    subst hai'
    have hbl : b < n := by
      have := (List.getElem?_eq_some_iff.1 hy).1
      rw [sort_inner_loop_length, hn] at this
      exact this
    exact sort_inner_loop_dominates a (n - a) a ts (le_refl a)
      (fun b hb hba => absurd hba (by omega)) b (by omega) (by omega) x y hx hy

theorem sort_outer_loop_length (n : ℕ) (k : ℕ) :
    ∀ (i : ℕ) (ts : List (triangle_t K)), (sort_outer_loop n k i ts).length = ts.length := by
  induction k with
  | zero => intro i ts; rfl
  | succ k ih =>
    intro i ts
    rw [sort_outer_loop, ih, sort_inner_loop_length]

theorem sort_outer_loop_sorted_upto (n : ℕ) (k : ℕ) :
    ∀ (i : ℕ) (ts : List (triangle_t K)), ts.length = n → sorted_upto i ts →
      sorted_upto (i + k) (sort_outer_loop n k i ts) := by
  induction k with
  | zero => intro i ts _ h; exact h
  | succ k ih =>
    intro i ts hn h
    rw [sort_outer_loop]
    have := ih (i + 1) _ (by rw [sort_inner_loop_length, hn])
      (sort_inner_loop_sorted_upto n i ts hn h)
    rw [show i + (k + 1) = i + 1 + k by omega]
    exact this

theorem depth_sort_length (ts : List (triangle_t K)) : (depth_sort ts).length = ts.length :=
  sort_outer_loop_length _ _ _ _

/-- Claim C1: after the depth-sort loop of `update` the triangle list is in
non-increasing `avg_depth` order: for two positions `i`, `j` of the output,
`i < j` gives `output[i].avg_depth >= output[j].avg_depth`, and a triangle
that is strictly deeper than another one comes earlier in the draw order. -/
theorem depth_sort_descending (ts : List (triangle_t K)) (i j : ℕ)
    (hi : i < (depth_sort ts).length) (hj : j < (depth_sort ts).length) :
    (i < j → ((depth_sort ts)[j]).avg_depth ≤ ((depth_sort ts)[i]).avg_depth) ∧
    (((depth_sort ts)[j]).avg_depth < ((depth_sort ts)[i]).avg_depth → i < j) := by
  have hlen := depth_sort_length ts
  have hs : sorted_upto (0 + ts.length) (depth_sort ts) :=
    sort_outer_loop_sorted_upto ts.length ts.length 0 ts rfl
      (fun a b ha => absurd ha (by omega))
  have key : ∀ a b (ha : a < (depth_sort ts).length) (hb : b < (depth_sort ts).length),
      a < b → ((depth_sort ts)[b]).avg_depth ≤ ((depth_sort ts)[a]).avg_depth :=
    fun a b ha hb hab =>
      hs a b (by omega) hab _ _ (List.getElem?_eq_getElem ha) (List.getElem?_eq_getElem hb)
  refine ⟨key i j hi hj, fun hlt => ?_⟩
  by_contra hnot
  rcases Nat.lt_or_ge j i with h | h
  · exact absurd (key j i hj hi h) (not_le.2 hlt)
  · have hij : i = j := by omega
    subst hij
    exact lt_irrefl _ hlt

theorem depth_sort_descending_witness :
    depth_sort ([⟨(⟨0, 0⟩, ⟨1, 0⟩, ⟨0, 1⟩), 1, 3⟩, ⟨(⟨0, 0⟩, ⟨1, 0⟩, ⟨0, 1⟩), 2, 1⟩,
        ⟨(⟨0, 0⟩, ⟨1, 0⟩, ⟨0, 1⟩), 3, 5⟩] : List (triangle_t ℤ)) =
      [⟨(⟨0, 0⟩, ⟨1, 0⟩, ⟨0, 1⟩), 3, 5⟩, ⟨(⟨0, 0⟩, ⟨1, 0⟩, ⟨0, 1⟩), 1, 3⟩,
        ⟨(⟨0, 0⟩, ⟨1, 0⟩, ⟨0, 1⟩), 2, 1⟩] ∧
    ∃ (h0 : 0 < (depth_sort ([⟨(⟨0, 0⟩, ⟨1, 0⟩, ⟨0, 1⟩), 1, 3⟩,
        ⟨(⟨0, 0⟩, ⟨1, 0⟩, ⟨0, 1⟩), 2, 1⟩,
        ⟨(⟨0, 0⟩, ⟨1, 0⟩, ⟨0, 1⟩), 3, 5⟩] : List (triangle_t ℤ))).length)
      (h2 : 2 < (depth_sort ([⟨(⟨0, 0⟩, ⟨1, 0⟩, ⟨0, 1⟩), 1, 3⟩,
        ⟨(⟨0, 0⟩, ⟨1, 0⟩, ⟨0, 1⟩), 2, 1⟩,
        ⟨(⟨0, 0⟩, ⟨1, 0⟩, ⟨0, 1⟩), 3, 5⟩] : List (triangle_t ℤ))).length),
      ((depth_sort ([⟨(⟨0, 0⟩, ⟨1, 0⟩, ⟨0, 1⟩), 1, 3⟩, ⟨(⟨0, 0⟩, ⟨1, 0⟩, ⟨0, 1⟩), 2, 1⟩,
        ⟨(⟨0, 0⟩, ⟨1, 0⟩, ⟨0, 1⟩), 3, 5⟩] : List (triangle_t ℤ)))[2]).avg_depth ≤
      ((depth_sort ([⟨(⟨0, 0⟩, ⟨1, 0⟩, ⟨0, 1⟩), 1, 3⟩, ⟨(⟨0, 0⟩, ⟨1, 0⟩, ⟨0, 1⟩), 2, 1⟩,
        ⟨(⟨0, 0⟩, ⟨1, 0⟩, ⟨0, 1⟩), 3, 5⟩] : List (triangle_t ℤ)))[0]).avg_depth :=
  ⟨by decide, by decide, by decide,
    (depth_sort_descending _ 0 2 (by decide) (by decide)).1 (by decide)⟩

end depth_sort_theorems

theorem scanline_zero (a b p q : ℚ) (y dy : ℤ) (color : ℕ) :
    scanline a b p q y dy color 0 = ⟨trunc a, y, trunc b, y, color⟩ := by
  simp [scanline]

theorem scanline_succ (a b p q : ℚ) (y dy : ℤ) (color : ℕ) (k : ℕ) :
    scanline a b p q y dy color (k + 1) = scanline (a + p) (b + q) p q (y + dy) dy color k := by
  simp only [scanline, Nat.cast_add, Nat.cast_one]
  congr 1 <;> ring_nf

theorem fill_flat_bottom_loop_finite (p q : ℚ) (color : ℕ) (n : ℕ) :
    ∀ (a b : ℚ) (y : ℤ),
      fill_flat_bottom_loop (some p) (some q) color n (some a) (some b) y
        = some ((List.range n).map (scanline a b p q y 1 color)) := by
  induction n with
  | zero => intro a b y; simp [fill_flat_bottom_loop]
  | succ n ih =>
    intro a b y
    simp only [fill_flat_bottom_loop, float_to_int, float_add, ih, Option.map_some',
      List.range_succ_eq_map, List.map_cons, List.map_map, scanline_zero]
    congr 2
    apply List.map_congr_left
    intro k _
    simp [scanline_succ]

theorem fill_flat_top_loop_finite (p q : ℚ) (color : ℕ) (n : ℕ) :
    ∀ (a b : ℚ) (y : ℤ),
      fill_flat_top_loop (some p) (some q) color n (some a) (some b) y
        = some ((List.range n).map (scanline a b p q y (-1) color)) := by
  induction n with
  | zero => intro a b y; simp [fill_flat_top_loop]
  | succ n ih =>
    intro a b y
    simp only [fill_flat_top_loop, float_to_int, float_add, ih, Option.map_some',
      List.range_succ_eq_map, List.map_cons, List.map_map, scanline_zero]
    congr 2
    apply List.map_congr_left
    intro k _
    simp [scanline_succ, sub_eq_add_neg]

theorem trunc_intCast (n : ℤ) : trunc (n : ℚ) = n := by
  simp [trunc]

theorem fill_flat_bottom_lines (x0 y0 x1 y1 x2 y2 : ℤ) (color : ℕ)
    (h1 : y0 < y1) (h2 : y0 < y2) :
    (fill_flat_bottom_triangle x0 y0 x1 y1 x2 y2 color).lines
      = some ((List.range (y2 - y0 + 1).toNat).map
          (scanline x0 x0 (((x1 - x0 : ℤ) : ℚ) / ((y1 - y0 : ℤ) : ℚ))
            (((x2 - x0 : ℤ) : ℚ) / ((y2 - y0 : ℤ) : ℚ)) y0 1 color)) := by
  have e1 : ((y1 - y0 : ℤ) : ℚ) ≠ 0 := by
    have : y1 - y0 ≠ 0 := by omega
    exact_mod_cast this
  have e2 : ((y2 - y0 : ℤ) : ℚ) ≠ 0 := by
    have : y2 - y0 ≠ 0 := by omega
    exact_mod_cast this
  simp only [fill_flat_bottom_triangle, float_div, float_of_int, if_neg e1, if_neg e2]
  exact fill_flat_bottom_loop_finite _ _ _ _ _ _ _

theorem fill_flat_top_lines (x0 y0 x1 y1 x2 y2 : ℤ) (color : ℕ)
    (h1 : y0 < y2) (h2 : y1 < y2) :
    (fill_flat_top_triangle x0 y0 x1 y1 x2 y2 color).lines
      = some ((List.range (y2 - y0 + 1).toNat).map
          (scanline x2 x2 (((x0 - x2 : ℤ) : ℚ) / ((y2 - y0 : ℤ) : ℚ))
            (((x1 - x2 : ℤ) : ℚ) / ((y2 - y1 : ℤ) : ℚ)) y2 (-1) color)) := by
  have e1 : ((y2 - y0 : ℤ) : ℚ) ≠ 0 := by
    have : y2 - y0 ≠ 0 := by omega
    exact_mod_cast this
  have e2 : ((y2 - y1 : ℤ) : ℚ) ≠ 0 := by
    have : y2 - y1 ≠ 0 := by omega
    exact_mod_cast this
  simp only [fill_flat_top_triangle, float_div, float_of_int, if_neg e1, if_neg e2]
  exact fill_flat_top_loop_finite _ _ _ _ _ _ _

/-- A fill over a single row emits one line from `x` to `x`, whatever the
inverse slopes are (also when they are non-finite). -/
theorem fill_flat_bottom_loop_one (s1 s2 : cfloat) (color : ℕ) (a b : ℚ) (y : ℤ) :
    fill_flat_bottom_loop s1 s2 color 1 (some a) (some b) y
      = some [⟨trunc a, y, trunc b, y, color⟩] := by
  simp [fill_flat_bottom_loop, float_to_int]

/-- Claim C3: for a flat-bottom triangle `(x0,y0),(x1,y1),(x2,y2)` with
`y0 < y1 = y2`, `fill_flat_bottom_triangle` reaches no undefined conversion and
emits one scanline for each row `y0 + k`, `k = 0 .. y2 - y0`, in increasing
order; in exact arithmetic the scanline of row `y0 + k` runs from
`x0 + k * (x1 - x0) / (y1 - y0)` to `x0 + k * (x2 - x0) / (y2 - y0)`, each
truncated toward zero; the first scanline is the single point `x0` and the
last runs from `x1` to `x2`. -/
theorem fill_flat_bottom_triangle_scanlines (x0 y0 x1 y1 x2 y2 : ℤ) (color : ℕ)
    (h01 : y0 < y1) (h12 : y1 = y2) :
    ∃ ls : List draw_line_call,
      (fill_flat_bottom_triangle x0 y0 x1 y1 x2 y2 color).lines = some ls ∧
      ls = (List.range (y2 - y0 + 1).toNat).map (fun k : ℕ =>
        { x0 := trunc ((x0 : ℚ) + (k : ℚ) * ((x1 : ℚ) - x0) / ((y1 : ℚ) - y0))
          y0 := y0 + k
          x1 := trunc ((x0 : ℚ) + (k : ℚ) * ((x2 : ℚ) - x0) / ((y2 : ℚ) - y0))
          y1 := y0 + k
          color := color }) ∧
      ls.head? = some ⟨x0, y0, x0, y0, color⟩ ∧
      ls.getLast? = some ⟨x1, y2, x2, y2, color⟩ := by
  subst h12
  obtain ⟨n, hn⟩ := Int.eq_ofNat_of_zero_le (by omega : 0 ≤ y1 - y0)
  have hcount : (y1 - y0 + 1).toNat = n + 1 := by omega
  have hq : ((y1 : ℚ) - y0) = (n : ℚ) := by
    have : ((y1 - y0 : ℤ) : ℚ) = ((n : ℤ) : ℚ) := by rw [hn]
    push_cast at this
    exact this
  have hn0 : (n : ℚ) ≠ 0 := by
    have : n ≠ 0 := by omega
    exact_mod_cast this
  refine ⟨_, fill_flat_bottom_lines x0 y0 x1 y1 x2 y1 color h01 h01, ?_, ?_, ?_⟩
  · apply List.map_congr_left
    intro k _
    simp only [scanline, Int.cast_sub, mul_one, mul_div_assoc]
  · rw [hcount, List.range_succ_eq_map]
    simp [scanline_zero, trunc_intCast]
  · rw [hcount, List.range_succ, List.map_append]
    simp only [List.map_cons, List.map_nil, List.getLast?_append, List.getLast?_singleton,
      scanline, Int.cast_sub, hq, mul_one]
    have a1 : (x0 : ℚ) + (n : ℚ) * (((x1 : ℚ) - x0) / n) = ((x1 : ℤ) : ℚ) := by
      field_simp
    have a2 : (x0 : ℚ) + (n : ℚ) * (((x2 : ℚ) - x0) / n) = ((x2 : ℤ) : ℚ) := by
      field_simp
    have hy : y0 + (n : ℤ) = y1 := by omega
    rw [a1, a2, trunc_intCast, trunc_intCast, hy]
    rfl

theorem fill_flat_bottom_triangle_scanlines_witness :
    (100 : ℤ) < 200 ∧ (200 : ℤ) = 200 ∧
    (fill_flat_bottom_triangle 100 100 50 200 150 200 0xFFFF0000).lines
      = some ((List.range 101).map (fun k : ℕ =>
          { x0 := trunc (100 - (k : ℚ) / 2), y0 := 100 + k
            x1 := trunc (100 + (k : ℚ) / 2), y1 := 100 + k, color := 0xFFFF0000 })) := by
  obtain ⟨ls, h1, h2, -, -⟩ :=
    fill_flat_bottom_triangle_scanlines 100 100 50 200 150 200 0xFFFF0000 (by decide) rfl
  refine ⟨by decide, rfl, ?_⟩
  rw [h1, h2]
  congr 1
  have : ((200 : ℤ) - 100 + 1).toNat = 101 := by decide
  rw [this]
  apply List.map_congr_left
  intro k _
  congr 2 <;> · push_cast; ring

theorem sort_vertices_sorted (v : vertices) :
    (sort_vertices v).y0 ≤ (sort_vertices v).y1 ∧ (sort_vertices v).y1 ≤ (sort_vertices v).y2 := by
  simp only [sort_vertices, swap_0_1, swap_1_2, int_swap]
  split_ifs <;> simp_all <;> omega

theorem sort_vertices_min_max (v : vertices) :
    (sort_vertices v).y0 = min v.y0 (min v.y1 v.y2) ∧
    (sort_vertices v).y2 = max v.y0 (max v.y1 v.y2) := by
  simp only [sort_vertices, swap_0_1, swap_1_2, int_swap]
  split_ifs <;> simp_all <;> omega

theorem scanline_rows_up (a b p q : ℚ) (y : ℤ) (color : ℕ) (n : ℕ) (r : ℤ) :
    (∃ l ∈ (List.range n).map (scanline a b p q y 1 color), l.y0 = r) ↔ (y ≤ r ∧ r < y + n) := by
  constructor
  · rintro ⟨l, hl, rfl⟩
    obtain ⟨k, hk, rfl⟩ := List.mem_map.1 hl
    have := List.mem_range.1 hk
    simp only [scanline]
    omega
  · rintro ⟨h1, h2⟩
    refine ⟨scanline a b p q y 1 color (r - y).toNat, List.mem_map.2 ⟨(r - y).toNat, ?_, rfl⟩, ?_⟩
    · rw [List.mem_range]; omega
    · simp only [scanline]; omega

theorem scanline_rows_down (a b p q : ℚ) (y : ℤ) (color : ℕ) (n : ℕ) (r : ℤ) :
    (∃ l ∈ (List.range n).map (scanline a b p q y (-1) color), l.y0 = r) ↔ (y - n < r ∧ r ≤ y) := by
  constructor
  · rintro ⟨l, hl, rfl⟩
    obtain ⟨k, hk, rfl⟩ := List.mem_map.1 hl
    have := List.mem_range.1 hk
    simp only [scanline]
    omega
  · rintro ⟨h1, h2⟩
    refine ⟨scanline a b p q y (-1) color (y - r).toNat, List.mem_map.2 ⟨(y - r).toNat, ?_, rfl⟩, ?_⟩
    · rw [List.mem_range]; omega
    · simp only [scanline]; omega

theorem scanline_horizontal (a b p q : ℚ) (y dy : ℤ) (color : ℕ) (n : ℕ) :
    ∀ l ∈ (List.range n).map (scanline a b p q y dy color), l.y0 = l.y1 := by
  intro l hl
  obtain ⟨k, -, rfl⟩ := List.mem_map.1 hl
  rfl

/-- The split point of the general case is always defined. -/
theorem split_x_eq (v : vertices) (h : v.y0 < v.y2) :
    split_x v = some (trunc ((v.x0 : ℚ)
      + ((v.x2 : ℚ) - v.x0) * ((v.y1 : ℚ) - v.y0) / ((v.y2 : ℚ) - v.y0))) := by
  have e : ((v.y2 - v.y0 : ℤ) : ℚ) ≠ 0 := by
    have : v.y2 - v.y0 ≠ 0 := by omega
    exact_mod_cast this
  simp only [split_x, float_div, float_of_int, if_neg e, float_add, float_to_int]
  congr 2
  push_cast
  ring

/-- Claim C2: for every three integer vertices and colour,
`draw_filled_triangle` reaches no undefined conversion, the rows on which it
emits a `draw_line` call are exactly the rows from the minimum to the maximum
of the three input `y`, inclusive, and every emitted line has the same `y` at
both endpoints. -/
theorem draw_filled_triangle_rows (x0 y0 x1 y1 x2 y2 : ℤ) (color : ℕ) :
    ∃ ls : List draw_line_call,
      (draw_filled_triangle x0 y0 x1 y1 x2 y2 color).lines = some ls ∧
      (∀ y : ℤ, (∃ l ∈ ls, l.y0 = y) ↔
        (min y0 (min y1 y2) ≤ y ∧ y ≤ max y0 (max y1 y2))) ∧
      (∀ l ∈ ls, l.y0 = l.y1) := by
  obtain ⟨hmin, hmax⟩ := sort_vertices_min_max ⟨x0, y0, x1, y1, x2, y2⟩
  obtain ⟨h01, h12⟩ := sort_vertices_sorted ⟨x0, y0, x1, y1, x2, y2⟩
  simp only at hmin hmax
  rw [← hmin, ← hmax]
  unfold draw_filled_triangle
  generalize sort_vertices ⟨x0, y0, x1, y1, x2, y2⟩ = v at *
  simp only
  by_cases e12 : v.y1 = v.y2
  · rw [if_pos e12]
    by_cases e01 : v.y0 = v.y1
    · -- zero height: a single row
      have hc : (v.y2 - v.y0 + 1).toNat = 1 := by omega
      refine ⟨[⟨v.x0, v.y0, v.x0, v.y0, color⟩], ?_, ?_, ?_⟩
      · simp only [fill_flat_bottom_triangle, hc, float_of_int]
        rw [fill_flat_bottom_loop_one, trunc_intCast]
      · intro y
        simp only [List.mem_singleton, exists_eq_left]
        omega
      · simp
    · have h1 : v.y0 < v.y1 := by omega
      have h2 : v.y0 < v.y2 := by omega
      refine ⟨_, fill_flat_bottom_lines _ _ _ _ _ _ color h1 h2, ?_, scanline_horizontal _ _ _ _ _ _ _ _⟩
      intro y
      rw [scanline_rows_up]
      omega
  · rw [if_neg e12]
    by_cases e01 : v.y0 = v.y1
    · rw [if_pos e01]
      have h1 : v.y0 < v.y2 := by omega
      have h2 : v.y1 < v.y2 := by omega
      refine ⟨_, fill_flat_top_lines _ _ _ _ _ _ color h1 h2, ?_, scanline_horizontal _ _ _ _ _ _ _ _⟩
      intro y
      rw [scanline_rows_down]
      omega
    · rw [if_neg e01]
      have h1 : v.y0 < v.y1 := by omega
      have h2 : v.y1 < v.y2 := by omega
      rw [split_x_eq v (by omega)]
      simp only [fill_result.append, fill_flat_bottom_lines _ _ _ _ _ _ color h1 h1,
        fill_flat_top_lines _ _ _ _ _ _ color h2 h2]
      refine ⟨_, rfl, ?_, ?_⟩
      · intro y
        simp only [List.nil_append, List.mem_append, or_and_right, exists_or,
          scanline_rows_up, scanline_rows_down]
        omega
      · intro l hl
        simp only [List.nil_append, List.mem_append] at hl
        rcases hl with hl | hl
        · exact scanline_horizontal _ _ _ _ _ _ _ _ l hl
        · exact scanline_horizontal _ _ _ _ _ _ _ _ l hl

/-- Claim C4: with `v` the vertices after the ordering by `y`: when
`v.y0 < v.y1 < v.y2`, `draw_filled_triangle` computes
`Mx = trunc (x0 + (x2 - x0) * (y1 - y0) / (y2 - y0))` and `My = y1` and what
it does is exactly the division for `Mx`, then
`fill_flat_bottom_triangle (x0,y0) (x1,y1) (Mx,My)`, then
`fill_flat_top_triangle (x1,y1) (Mx,My) (x2,y2)`; when `v.y1 = v.y2` it is
exactly the flat-bottom fill of the three vertices, and when
`v.y0 = v.y1 < v.y2` exactly the flat-top fill. -/
theorem draw_filled_triangle_decomposition (x0 y0 x1 y1 x2 y2 : ℤ) (color : ℕ)
    (v : vertices) (hv : sort_vertices ⟨x0, y0, x1, y1, x2, y2⟩ = v) :
    (v.y0 < v.y1 ∧ v.y1 < v.y2 →
      ∃ (Mx : ℤ) (l1 l2 : List draw_line_call),
        Mx = trunc ((v.x0 : ℚ) + ((v.x2 : ℚ) - v.x0) * ((v.y1 : ℚ) - v.y0) / ((v.y2 : ℚ) - v.y0)) ∧
        split_x v = some Mx ∧
        (fill_flat_bottom_triangle v.x0 v.y0 v.x1 v.y1 Mx v.y1 color).lines = some l1 ∧
        (fill_flat_top_triangle v.x1 v.y1 Mx v.y1 v.x2 v.y2 color).lines = some l2 ∧
        draw_filled_triangle x0 y0 x1 y1 x2 y2 color =
          { divisors := (v.y2 - v.y0) ::
              ((fill_flat_bottom_triangle v.x0 v.y0 v.x1 v.y1 Mx v.y1 color).divisors ++
               (fill_flat_top_triangle v.x1 v.y1 Mx v.y1 v.x2 v.y2 color).divisors)
            lines := some (l1 ++ l2) }) ∧
    (v.y1 = v.y2 →
      draw_filled_triangle x0 y0 x1 y1 x2 y2 color =
        fill_flat_bottom_triangle v.x0 v.y0 v.x1 v.y1 v.x2 v.y2 color) ∧
    (v.y0 = v.y1 ∧ v.y1 < v.y2 →
      draw_filled_triangle x0 y0 x1 y1 x2 y2 color =
        fill_flat_top_triangle v.x0 v.y0 v.x1 v.y1 v.x2 v.y2 color) := by
  unfold draw_filled_triangle
  rw [hv]
  refine ⟨?_, ?_, ?_⟩
  · rintro ⟨h1, h2⟩
    have e12 : v.y1 ≠ v.y2 := by omega
    have e01 : v.y0 ≠ v.y1 := by omega
    refine ⟨_, _, _, rfl, split_x_eq v (by omega),
      fill_flat_bottom_lines _ _ _ _ _ _ color h1 h1,
      fill_flat_top_lines _ _ _ _ _ _ color h2 h2, ?_⟩
    simp only [if_neg e12, if_neg e01, split_x_eq v (by omega), fill_result.append,
      fill_flat_bottom_lines _ _ _ _ _ _ color h1 h1,
      fill_flat_top_lines _ _ _ _ _ _ color h2 h2, List.nil_append, List.singleton_append]
  · intro e12
    simp only [if_pos e12]
  · rintro ⟨e01, h2⟩
    have e12 : v.y1 ≠ v.y2 := by omega
    simp only [if_neg e12, if_pos e01]

theorem draw_filled_triangle_decomposition_witness :
    sort_vertices ⟨-3, 5, 10, 2, 0, 0⟩ = ⟨0, 0, 10, 2, -3, 5⟩ ∧
    ((0 : ℤ) < 2 ∧ (2 : ℤ) < 5) ∧
    split_x ⟨0, 0, 10, 2, -3, 5⟩ = some (-1) ∧
    (draw_filled_triangle (-3) 5 10 2 0 0 7).divisors = [5, 2, 2, 3, 3] ∧
    (draw_filled_triangle (-3) 5 10 2 0 0 7).lines =
      (fill_result.append (fill_flat_bottom_triangle 0 0 10 2 (-1) 2 7)
        (fill_flat_top_triangle 10 2 (-1) 2 (-3) 5 7)).lines := by
  have hv : sort_vertices ⟨-3, 5, 10, 2, 0, 0⟩ = ⟨0, 0, 10, 2, -3, 5⟩ := by decide
  obtain ⟨Mx, l1, l2, hM, hs, hl1, hl2, h⟩ :=
    (draw_filled_triangle_decomposition (-3) 5 10 2 0 0 7 _ hv).1 ⟨by decide, by decide⟩
  have hMx : Mx = -1 := by
    rw [hM]
    norm_num [trunc, Int.ceil_eq_iff]
  subst hMx
  refine ⟨hv, ⟨by decide, by decide⟩, hs, ?_, ?_⟩
  · rw [h]; rfl
  · rw [h]
    simp only [fill_result.append, hl1, hl2]

/-- Claim C8, evaluated on the code: for a zero-height triangle (the three
vertices on the row `y`) `draw_filled_triangle` takes the flat-bottom branch,
divides twice by `y - y = 0`, and emits one `draw_line` call, from `(x0, y)`
to `(x0, y)`.  So a division by zero is made and the output is not empty. -/
theorem draw_filled_triangle_zero_height (x0 x1 x2 y : ℤ) (color : ℕ) :
    draw_filled_triangle x0 y x1 y x2 y color =
      { divisors := [0, 0], lines := some [⟨x0, y, x0, y, color⟩] } := by
  have hv : sort_vertices ⟨x0, y, x1, y, x2, y⟩ = ⟨x0, y, x1, y, x2, y⟩ := by
    simp [sort_vertices]
  have hc : (y - y + 1).toNat = 1 := by omega
  unfold draw_filled_triangle
  rw [hv]
  simp only [if_true, fill_flat_bottom_triangle, hc, float_of_int, fill_flat_bottom_loop_one,
    trunc_intCast]
  simp

/-- Claim C9 fails at `(0,0),(0,0),(5,10)`: `draw_filled_triangle` takes the
flat-top branch and emits eleven `draw_line` calls, one per row `10 .. 0`. -/
theorem draw_filled_triangle_coincident_vertices_emits :
    (draw_filled_triangle 0 0 0 0 5 10 7).lines =
      some [⟨5, 10, 5, 10, 7⟩, ⟨4, 9, 4, 9, 7⟩, ⟨4, 8, 4, 8, 7⟩, ⟨3, 7, 3, 7, 7⟩,
        ⟨3, 6, 3, 6, 7⟩, ⟨2, 5, 2, 5, 7⟩, ⟨2, 4, 2, 4, 7⟩, ⟨1, 3, 1, 3, 7⟩,
        ⟨1, 2, 1, 2, 7⟩, ⟨0, 1, 0, 1, 7⟩, ⟨0, 0, 0, 0, 7⟩] := by
  have hv : sort_vertices ⟨0, 0, 0, 0, 5, 10⟩ = ⟨0, 0, 0, 0, 5, 10⟩ := by decide
  have hr : List.range 11 = [0, 1, 2, 3, 4, 5, 6, 7, 8, 9, 10] := by decide
  unfold draw_filled_triangle
  rw [hv]
  simp only [show ¬ ((0 : ℤ) = 10) by decide, if_false, if_true]
  rw [fill_flat_top_lines _ _ _ _ _ _ _ (by decide) (by decide)]
  simp only [show ((10 : ℤ) - 0 + 1).toNat = 11 by decide, hr, List.map_cons, List.map_nil,
    scanline]
  norm_num [trunc, Int.floor_eq_iff]

theorem sort_vertices_coincident (v : vertices)
    (hc : (v.x0 = v.x1 ∧ v.y0 = v.y1) ∨ (v.x1 = v.x2 ∧ v.y1 = v.y2) ∨ (v.x0 = v.x2 ∧ v.y0 = v.y2))
    (hne : ¬ (v.y0 = v.y1 ∧ v.y1 = v.y2)) :
    ((sort_vertices v).y1 = (sort_vertices v).y2 ∧ (sort_vertices v).y0 < (sort_vertices v).y1 ∧
        (sort_vertices v).x1 = (sort_vertices v).x2) ∨
    ((sort_vertices v).y0 = (sort_vertices v).y1 ∧ (sort_vertices v).y1 < (sort_vertices v).y2 ∧
        (sort_vertices v).x0 = (sort_vertices v).x1) := by
  simp only [sort_vertices, swap_0_1, swap_1_2, int_swap]
  split_ifs <;> simp_all <;> omega

/-- Claim C9 as amended: for every triangle in which two of the three
vertices share both coordinates and whose three `y` are not all equal,
`draw_filled_triangle` emits `max y - min y + 1` (at least two) `draw_line`
calls, each from a point to the same point: the degenerate triangle is drawn
as a segment one pixel wide. -/
theorem draw_filled_triangle_coincident_vertices (x0 y0 x1 y1 x2 y2 : ℤ) (color : ℕ)
    (hc : (x0 = x1 ∧ y0 = y1) ∨ (x1 = x2 ∧ y1 = y2) ∨ (x0 = x2 ∧ y0 = y2))
    (hne : ¬ (y0 = y1 ∧ y1 = y2)) :
    ∃ ls : List draw_line_call,
      (draw_filled_triangle x0 y0 x1 y1 x2 y2 color).lines = some ls ∧
      ls.length = (max y0 (max y1 y2) - min y0 (min y1 y2) + 1).toNat ∧
      2 ≤ ls.length ∧
      ∀ l ∈ ls, l.x0 = l.x1 ∧ l.y0 = l.y1 := by
  obtain ⟨hmin, hmax⟩ := sort_vertices_min_max ⟨x0, y0, x1, y1, x2, y2⟩
  have hs := sort_vertices_coincident ⟨x0, y0, x1, y1, x2, y2⟩ hc hne
  simp only at hmin hmax
  rw [← hmin, ← hmax]
  unfold draw_filled_triangle
  generalize sort_vertices ⟨x0, y0, x1, y1, x2, y2⟩ = v at *
  simp only
  rcases hs with ⟨e12, h01, hx⟩ | ⟨e01, h12, hx⟩
  · rw [if_pos e12, fill_flat_bottom_lines _ _ _ _ _ _ color h01 (by omega)]
    refine ⟨_, rfl, by simp, ?_, ?_⟩
    · simp only [List.length_map, List.length_range]; omega
    · intro l hl
      obtain ⟨k, -, rfl⟩ := List.mem_map.1 hl
      simp only [scanline, hx, e12, and_self]
  · have e12 : v.y1 ≠ v.y2 := by omega
    rw [if_neg e12, if_pos e01, fill_flat_top_lines _ _ _ _ _ _ color (by omega) h12]
    refine ⟨_, rfl, by simp, ?_, ?_⟩
    · simp only [List.length_map, List.length_range]; omega
    · intro l hl
      obtain ⟨k, -, rfl⟩ := List.mem_map.1 hl
      simp only [scanline, hx, e01, and_self]

theorem draw_filled_triangle_coincident_vertices_witness :
    (((0 : ℤ) = 0 ∧ (0 : ℤ) = 0) ∨ ((0 : ℤ) = 5 ∧ (0 : ℤ) = 10) ∨ ((0 : ℤ) = 5 ∧ (0 : ℤ) = 10)) ∧
    ¬ ((0 : ℤ) = 0 ∧ (0 : ℤ) = 10) ∧
    ∃ ls : List draw_line_call,
      (draw_filled_triangle 0 0 0 0 5 10 7).lines = some ls ∧
      ls.length = 11 ∧ 2 ≤ ls.length ∧ ∀ l ∈ ls, l.x0 = l.x1 ∧ l.y0 = l.y1 :=
  ⟨by decide, by decide,
    draw_filled_triangle_coincident_vertices 0 0 0 0 5 10 7 (by decide) (by decide)⟩

theorem face_triangle_eq_none_iff {K : Type} [LinearOrderedField K] (sqrt : K → K)
    (s : state K) (color : ℕ) (tv : vec3_t K × vec3_t K × vec3_t K) :
    face_triangle sqrt s color tv = none ↔
      (s.cull_method = cull_method_t.CULL_BACKFACE ∧
        dot_normal_camera sqrt s.camera_position tv < 0) := by
  unfold face_triangle
  split_ifs with h
  · simp [h]
  · simp [h]

/-- With every face index inside `mesh.vertices`, the face loop returns the
triangles pushed so far followed by the triangles of the faces that pass the
backface test, in face order. -/
theorem face_loop_eq {K : Type} [LinearOrderedField K] (lib : vector_lib K) (s : state K)
    (faces : List face_t) :
    ∀ (triangles : List (triangle_t K)),
      (∀ f ∈ faces, ∃ tv, face_transformed_vertices lib s.mesh f = some tv) →
      face_loop lib s faces triangles =
        some (triangles ++ faces.filterMap (fun f =>
          (face_transformed_vertices lib s.mesh f).bind (face_triangle lib.sqrt s f.color))) := by
  induction faces with
  | nil => intro triangles _; simp [face_loop]
  | cons f rest ih =>
    intro triangles hv
    obtain ⟨tv, htv⟩ := hv f (List.mem_cons_self _ _)
    have hrest : ∀ g ∈ rest, ∃ tv, face_transformed_vertices lib s.mesh g = some tv :=
      fun g hg => hv g (List.mem_cons_of_mem _ hg)
    simp only [face_loop, htv]
    cases hft : face_triangle lib.sqrt s f.color tv with
    | none =>
      simp only [ih triangles hrest]
      rw [List.filterMap_cons_none (by simp [htv, hft])]
    | some t =>
      simp only [ih (triangles ++ [t]) hrest]
      rw [List.filterMap_cons_some (by simp [htv, hft] : _ = some t)]
      simp

theorem vertex_at_valid {K : Type} (vertices : List (vec3_t K)) (i : ℤ) (h1 : 1 ≤ i)
    (h2 : i ≤ vertices.length) : ∃ v, vertex_at vertices (i - 1) = some v := by
  have h0 : 0 ≤ i - 1 := by omega
  have hl : (i - 1).toNat < vertices.length := by omega
  exact ⟨vertices[(i - 1).toNat], by simp [vertex_at, h0, List.getElem?_eq_getElem hl]⟩

theorem face_transformed_vertices_valid {K : Type} [LinearOrderedField K] (lib : vector_lib K)
    (mesh : mesh_t K) (f : face_t)
    (ha : 1 ≤ f.a ∧ f.a ≤ mesh.vertices.length) (hb : 1 ≤ f.b ∧ f.b ≤ mesh.vertices.length)
    (hc : 1 ≤ f.c ∧ f.c ≤ mesh.vertices.length) :
    ∃ tv, face_transformed_vertices lib mesh f = some tv := by
  obtain ⟨va, hva⟩ := vertex_at_valid mesh.vertices f.a ha.1 ha.2
  obtain ⟨vb, hvb⟩ := vertex_at_valid mesh.vertices f.b hb.1 hb.2
  obtain ⟨vc, hvc⟩ := vertex_at_valid mesh.vertices f.c hc.1 hc.2
  simp only [face_transformed_vertices, hva, hvb, hvc]
  exact ⟨_, rfl⟩

theorem length_filterMap_of_forall_some {α β : Type} (f : α → Option β) (l : List α)
    (h : ∀ x ∈ l, ∃ y, f x = some y) : (l.filterMap f).length = l.length := by
  induction l with
  | nil => rfl
  | cons a l ih =>
    obtain ⟨y, hy⟩ := h a (List.mem_cons_self _ _)
    rw [List.filterMap_cons_some hy, List.length_cons, List.length_cons,
      ih (fun x hx => h x (List.mem_cons_of_mem _ hx))]

/-- What `update` returns when every face index is inside `mesh.vertices`. -/
theorem update_eq {K : Type} [LinearOrderedField K] (lib : vector_lib K) (FRAME_TARGET_TIME : ℤ)
    (ticks_before ticks_after : ℕ) (s : state K) (hvalid : valid_faces s.mesh) :
    ∃ r, update lib FRAME_TARGET_TIME ticks_before ticks_after s = some r ∧
      r.state.cull_method = s.cull_method ∧
      r.state.mesh.faces = s.mesh.faces ∧
      r.state.mesh.vertices = s.mesh.vertices ∧
      r.state.triangles_to_render = depth_sort (r.state.mesh.faces.filterMap (fun f =>
        (face_transformed_vertices lib r.state.mesh f).bind
          (face_triangle lib.sqrt r.state f.color))) := by
  unfold update
  simp only
  rw [face_loop_eq]
  · exact ⟨_, rfl, rfl, rfl, rfl, rfl⟩
  · intro f hf
    obtain ⟨ha, hb, hc⟩ := hvalid f hf
    exact face_transformed_vertices_valid lib _ f ha hb hc

/-- Claim C6: the face loop of `update` skips a face if and only if
`cull_method` is `CULL_BACKFACE` and `dot_normal_camera` is strictly negative;
a face whose dot product is zero is pushed; `update` returns the depth-sorted
list of the triangles of the faces that are not skipped; and under
`CULL_NONE` that list has as many triangles as the mesh has faces. -/
theorem update_backface_culling {K : Type} [LinearOrderedField K] (lib : vector_lib K)
    (FRAME_TARGET_TIME : ℤ) (ticks_before ticks_after : ℕ) (s : state K)
    (hvalid : valid_faces s.mesh) :
    (∀ (st : state K) (color : ℕ) (tv : vec3_t K × vec3_t K × vec3_t K),
      (face_triangle lib.sqrt st color tv = none ↔
        (st.cull_method = cull_method_t.CULL_BACKFACE ∧
          dot_normal_camera lib.sqrt st.camera_position tv < 0)) ∧
      (dot_normal_camera lib.sqrt st.camera_position tv = 0 →
        ∃ t, face_triangle lib.sqrt st color tv = some t)) ∧
    ∃ r, update lib FRAME_TARGET_TIME ticks_before ticks_after s = some r ∧
      r.state.triangles_to_render = depth_sort (r.state.mesh.faces.filterMap (fun f =>
        (face_transformed_vertices lib r.state.mesh f).bind
          (face_triangle lib.sqrt r.state f.color))) ∧
      (s.cull_method = cull_method_t.CULL_NONE →
        r.state.triangles_to_render.length = s.mesh.faces.length) := by
  refine ⟨fun st color tv => ⟨face_triangle_eq_none_iff lib.sqrt st color tv, fun h0 => ?_⟩, ?_⟩
  · cases h : face_triangle lib.sqrt st color tv with
    | some t => exact ⟨t, rfl⟩
    | none =>
      have := ((face_triangle_eq_none_iff lib.sqrt st color tv).1 h).2
      rw [h0] at this
      exact absurd this (lt_irrefl _)
  · obtain ⟨r, hr, hcull, hfaces, hverts, hts⟩ :=
      update_eq lib FRAME_TARGET_TIME ticks_before ticks_after s hvalid
    refine ⟨r, hr, hts, fun hnone => ?_⟩
    rw [hts, depth_sort_length, ← hfaces]
    apply length_filterMap_of_forall_some
    intro f hf
    obtain ⟨ha, hb, hc⟩ := hvalid f (hfaces ▸ hf)
    rw [← hverts] at ha hb hc
    obtain ⟨tv, htv⟩ := face_transformed_vertices_valid lib r.state.mesh f ha hb hc
    cases h : face_triangle lib.sqrt r.state f.color tv with
    | some t => exact ⟨t, by simp [htv, h]⟩
    | none =>
      have := ((face_triangle_eq_none_iff lib.sqrt r.state f.color tv).1 h).1
      rw [hcull, hnone] at this
      cases this

theorem update_backface_culling_witness :
    valid_faces (⟨[⟨1, 1, 1⟩, ⟨-1, 1, 1⟩, ⟨1, -1, 1⟩], [⟨1, 2, 3, 5⟩, ⟨1, 3, 2, 6⟩],
      ⟨0, 0, 0⟩⟩ : mesh_t ℚ) ∧
    ∃ r, update (⟨fun x => x, fun v _ => v, fun v _ => v, fun v _ => v⟩ : vector_lib ℚ) 33 10 20
        ⟨[], 0, ⟨0, 0, 0⟩, 640,
          ⟨[⟨1, 1, 1⟩, ⟨-1, 1, 1⟩, ⟨1, -1, 1⟩], [⟨1, 2, 3, 5⟩, ⟨1, 3, 2, 6⟩], ⟨0, 0, 0⟩⟩,
          cull_method_t.CULL_NONE, render_method_t.RENDER_WIRE, 800, 600⟩ = some r ∧
      r.state.triangles_to_render.length = 2 := by
  have hv : valid_faces (⟨[⟨1, 1, 1⟩, ⟨-1, 1, 1⟩, ⟨1, -1, 1⟩], [⟨1, 2, 3, 5⟩, ⟨1, 3, 2, 6⟩],
      ⟨0, 0, 0⟩⟩ : mesh_t ℚ) := by
    intro f hf
    simp only [List.mem_cons, List.mem_singleton, List.not_mem_nil, or_false] at hf
    rcases hf with rfl | rfl <;> decide
  obtain ⟨r, hr, -, hlen⟩ := (update_backface_culling
    (⟨fun x => x, fun v _ => v, fun v _ => v, fun v _ => v⟩ : vector_lib ℚ) 33 10 20
    ⟨[], 0, ⟨0, 0, 0⟩, 640,
      ⟨[⟨1, 1, 1⟩, ⟨-1, 1, 1⟩, ⟨1, -1, 1⟩], [⟨1, 2, 3, 5⟩, ⟨1, 3, 2, 6⟩], ⟨0, 0, 0⟩⟩,
      cull_method_t.CULL_NONE, render_method_t.RENDER_WIRE, 800, 600⟩ hv).2
  exact ⟨hv, r, hr, hlen rfl⟩

/-- Claim C5 fails for an odd window width: with `fov_factor = 640`, a
window of 801 by 600 and the vertex `(1, 1, 2)`, the stored point has
`x = 320 + 400 = 720`, and `fov * x / z + width / 2` is `720 + 1/2`. -/
theorem projected_point_odd_width :
    projected_point (640 : ℚ) 801 600 ⟨1, 1, 2⟩ = ⟨720, 620⟩ ∧
    (640 : ℚ) * 1 / 2 + 801 / 2 ≠ 720 := by
  constructor
  · simp only [projected_point, project, show Int.tdiv 801 2 = 400 by decide,
      show Int.tdiv 600 2 = 300 by decide]
    norm_num
  · norm_num

theorem tdiv_two_cast {K : Type} [LinearOrderedField K] (w : ℤ) (h : 2 ∣ w) :
    ((Int.tdiv w 2 : ℤ) : K) = (w : K) / 2 := by
  obtain ⟨k, rfl⟩ := h
  rw [Int.mul_tdiv_cancel_left _ (by decide)]
  push_cast
  ring

/-- Claim C5 as amended: for the transformed vertices `(x, y, z)` of a face
that is pushed, all with `z > 0`, the screen points stored in the triangle
record are `fov * x / z + width div 2` and `fov * y / z + height div 2`, the
halves being integer divisions (equal to `width / 2` and `height / 2` when the
dimensions are even); they depend on the vertex, `fov_factor` and the window
dimensions only. -/
theorem update_screen_points {K : Type} [LinearOrderedField K] (sqrt : K → K) (s : state K)
    (color : ℕ) (tv : vec3_t K × vec3_t K × vec3_t K) (t : triangle_t K)
    (h : face_triangle sqrt s color tv = some t)
    (_hz : 0 < tv.1.z ∧ 0 < tv.2.1.z ∧ 0 < tv.2.2.z) :
    t.points =
      (⟨s.fov_factor * tv.1.x / tv.1.z + ((Int.tdiv s.window_width 2 : ℤ) : K),
        s.fov_factor * tv.1.y / tv.1.z + ((Int.tdiv s.window_height 2 : ℤ) : K)⟩,
       ⟨s.fov_factor * tv.2.1.x / tv.2.1.z + ((Int.tdiv s.window_width 2 : ℤ) : K),
        s.fov_factor * tv.2.1.y / tv.2.1.z + ((Int.tdiv s.window_height 2 : ℤ) : K)⟩,
       ⟨s.fov_factor * tv.2.2.x / tv.2.2.z + ((Int.tdiv s.window_width 2 : ℤ) : K),
        s.fov_factor * tv.2.2.y / tv.2.2.z + ((Int.tdiv s.window_height 2 : ℤ) : K)⟩) ∧
    (2 ∣ s.window_width → 2 ∣ s.window_height →
      t.points =
        (⟨s.fov_factor * tv.1.x / tv.1.z + (s.window_width : K) / 2,
          s.fov_factor * tv.1.y / tv.1.z + (s.window_height : K) / 2⟩,
         ⟨s.fov_factor * tv.2.1.x / tv.2.1.z + (s.window_width : K) / 2,
          s.fov_factor * tv.2.1.y / tv.2.1.z + (s.window_height : K) / 2⟩,
         ⟨s.fov_factor * tv.2.2.x / tv.2.2.z + (s.window_width : K) / 2,
          s.fov_factor * tv.2.2.y / tv.2.2.z + (s.window_height : K) / 2⟩)) := by
  have hp : t.points =
      (projected_point s.fov_factor s.window_width s.window_height tv.1,
       projected_point s.fov_factor s.window_width s.window_height tv.2.1,
       projected_point s.fov_factor s.window_width s.window_height tv.2.2) := by
    unfold face_triangle at h
    split_ifs at h
    cases h
    rfl
  refine ⟨by rw [hp]; rfl, fun hw hh => ?_⟩
  rw [hp]
  simp only [projected_point, project, tdiv_two_cast _ hw, tdiv_two_cast _ hh]

theorem update_screen_points_witness :
    face_triangle Real.sqrt
      ⟨[], 0, ⟨0, 0, 0⟩, 640, ⟨[], [], ⟨0, 0, 0⟩⟩, cull_method_t.CULL_NONE,
        render_method_t.RENDER_WIRE, 801, 600⟩ 7 (⟨1, 1, 2⟩, ⟨-1, 1, 2⟩, ⟨1, -1, 4⟩)
      = some ⟨(⟨720, 620⟩, ⟨80, 620⟩, ⟨560, 140⟩), 7, 8 / 3⟩ ∧
    ((0 : ℝ) < 2 ∧ (0 : ℝ) < 2 ∧ (0 : ℝ) < 4) ∧
    ((⟨720, 620⟩, ⟨80, 620⟩, ⟨560, 140⟩) : vec2_t ℝ × vec2_t ℝ × vec2_t ℝ) =
      (⟨640 * 1 / 2 + ((Int.tdiv 801 2 : ℤ) : ℝ), 640 * 1 / 2 + ((Int.tdiv 600 2 : ℤ) : ℝ)⟩,
       ⟨640 * (-1) / 2 + ((Int.tdiv 801 2 : ℤ) : ℝ), 640 * 1 / 2 + ((Int.tdiv 600 2 : ℤ) : ℝ)⟩,
       ⟨640 * 1 / 4 + ((Int.tdiv 801 2 : ℤ) : ℝ), 640 * (-1) / 4 + ((Int.tdiv 600 2 : ℤ) : ℝ)⟩) := by
  have h : face_triangle Real.sqrt
      ⟨[], 0, ⟨0, 0, 0⟩, 640, ⟨[], [], ⟨0, 0, 0⟩⟩, cull_method_t.CULL_NONE,
        render_method_t.RENDER_WIRE, 801, 600⟩ 7 (⟨1, 1, 2⟩, ⟨-1, 1, 2⟩, ⟨1, -1, 4⟩)
      = some ⟨(⟨720, 620⟩, ⟨80, 620⟩, ⟨560, 140⟩), 7, 8 / 3⟩ := by
    simp only [face_triangle]
    rw [if_neg (fun hc => by cases hc.1)]
    simp only [projected_point, project, show Int.tdiv 801 2 = 400 by decide,
      show Int.tdiv 600 2 = 300 by decide]
    norm_num
  have hz : (0 : ℝ) < 2 ∧ (0 : ℝ) < 2 ∧ (0 : ℝ) < 4 := by norm_num
  exact ⟨h, hz, (update_screen_points Real.sqrt _ 7 _ _ h hz).1⟩

/-- Claim C10 fails for the face with transformed vertices
`(1,1,-1), (-1,1,-1), (1,-1,-1)` under `CULL_NONE`: every `z` is negative and
the triangle is pushed, with the points obtained by dividing by `z = -1`. -/
theorem face_triangle_negative_depth :
    face_triangle Real.sqrt
      ⟨[], 0, ⟨0, 0, 0⟩, 640, ⟨[], [], ⟨0, 0, 0⟩⟩, cull_method_t.CULL_NONE,
        render_method_t.RENDER_WIRE, 800, 600⟩ 7 (⟨1, 1, -1⟩, ⟨-1, 1, -1⟩, ⟨1, -1, -1⟩)
      = some ⟨(⟨-240, -340⟩, ⟨1040, -340⟩, ⟨-240, 940⟩), 7, -1⟩ := by
  simp only [face_triangle]
  rw [if_neg (fun hc => by cases hc.1)]
  simp only [projected_point, project, show Int.tdiv 800 2 = 400 by decide,
    show Int.tdiv 600 2 = 300 by decide]
  norm_num

/-- Claim C10 as amended: `update` has no depth guard.  A face that has a
transformed vertex with `z <= 0` is treated like every other face: it is
skipped only by the backface test, under `CULL_NONE` its triangle is always
pushed, and a vertex with `z < 0` is projected by dividing by that `z`. -/
theorem update_no_depth_guard {K : Type} [LinearOrderedField K] (sqrt : K → K) (s : state K)
    (color : ℕ) (tv : vec3_t K × vec3_t K × vec3_t K)
    (_hz : tv.1.z ≤ 0 ∨ tv.2.1.z ≤ 0 ∨ tv.2.2.z ≤ 0) :
    (face_triangle sqrt s color tv = none ↔
      (s.cull_method = cull_method_t.CULL_BACKFACE ∧
        dot_normal_camera sqrt s.camera_position tv < 0)) ∧
    (s.cull_method = cull_method_t.CULL_NONE →
      face_triangle sqrt s color tv = some
        { points :=
            (projected_point s.fov_factor s.window_width s.window_height tv.1,
             projected_point s.fov_factor s.window_width s.window_height tv.2.1,
             projected_point s.fov_factor s.window_width s.window_height tv.2.2)
          color := color
          avg_depth := (tv.1.z + tv.2.1.z + tv.2.2.z) / 3 }) ∧
    (∀ v : vec3_t K, v.z < 0 →
      projected_point s.fov_factor s.window_width s.window_height v =
        ⟨s.fov_factor * v.x / v.z + ((Int.tdiv s.window_width 2 : ℤ) : K),
         s.fov_factor * v.y / v.z + ((Int.tdiv s.window_height 2 : ℤ) : K)⟩) := by
  refine ⟨face_triangle_eq_none_iff sqrt s color tv, fun hnone => ?_, fun v _ => rfl⟩
  unfold face_triangle
  rw [if_neg (fun hc => by rw [hnone] at hc; cases hc.1)]

theorem update_no_depth_guard_witness :
    (((-1 : ℝ) ≤ 0) ∨ ((-1 : ℝ) ≤ 0) ∨ ((-1 : ℝ) ≤ 0)) ∧
    face_triangle Real.sqrt
      ⟨[], 0, ⟨0, 0, 0⟩, 640, ⟨[], [], ⟨0, 0, 0⟩⟩, cull_method_t.CULL_NONE,
        render_method_t.RENDER_WIRE, 800, 600⟩ 7 (⟨1, 1, -1⟩, ⟨-1, 1, -1⟩, ⟨1, -1, -1⟩)
      ≠ none := by
  have hz : ((-1 : ℝ) ≤ 0) ∨ ((-1 : ℝ) ≤ 0) ∨ ((-1 : ℝ) ≤ 0) := Or.inl (by norm_num)
  refine ⟨hz, fun hnone => ?_⟩
  have := ((update_no_depth_guard Real.sqrt
    ⟨[], 0, ⟨0, 0, 0⟩, 640, ⟨[], [], ⟨0, 0, 0⟩⟩, cull_method_t.CULL_NONE,
      render_method_t.RENDER_WIRE, 800, 600⟩ 7 (⟨1, 1, -1⟩, ⟨-1, 1, -1⟩, ⟨1, -1, -1⟩) hz).1.1
        hnone).1
  cases this

/-- Normalizing the opposite vector gives the opposite of the normalized
vector, whatever the square root function is. -/
theorem vec3_normalize_neg {K : Type} [LinearOrderedField K] (sqrt : K → K) (v : vec3_t K) :
    vec3_normalize sqrt ⟨-v.x, -v.y, -v.z⟩ =
      ⟨-(vec3_normalize sqrt v).x, -(vec3_normalize sqrt v).y, -(vec3_normalize sqrt v).z⟩ := by
  simp only [vec3_normalize, neg_mul_neg, neg_div]

theorem vec3_cross_swap {K : Type} [LinearOrderedField K] (a b : vec3_t K) :
    vec3_cross b a = ⟨-(vec3_cross a b).x, -(vec3_cross a b).y, -(vec3_cross a b).z⟩ := by
  simp only [vec3_cross, vec3_t.mk.injEq]
  refine ⟨?_, ?_, ?_⟩ <;> ring

theorem sqrt_mul_self_mul {K : Type} [LinearOrderedField K] (sqrt : K → K)
    (hsqrt : ∀ x, 0 ≤ x → 0 ≤ sqrt x ∧ sqrt x * sqrt x = x) (c s : K) (hc : 0 ≤ c)
    (hs : 0 ≤ s) : sqrt (c * c * s) = c * sqrt s := by
  have h1 := hsqrt (c * c * s) (mul_nonneg (mul_self_nonneg c) hs)
  have h2 := hsqrt s hs
  have h3 : 0 ≤ c * sqrt s := mul_nonneg hc h2.1
  have h4 : sqrt (c * c * s) * sqrt (c * c * s) = (c * sqrt s) * (c * sqrt s) := by
    rw [h1.2]
    calc c * c * s = c * c * (sqrt s * sqrt s) := by rw [h2.2]
      _ = (c * sqrt s) * (c * sqrt s) := by ring
  exact (mul_self_inj h1.1 h3).1 h4

theorem norm_sq_nonneg {K : Type} [LinearOrderedField K] (v : vec3_t K) :
    0 ≤ v.x * v.x + v.y * v.y + v.z * v.z :=
  add_nonneg (add_nonneg (mul_self_nonneg _) (mul_self_nonneg _)) (mul_self_nonneg _)

theorem norm_sq_eq_zero {K : Type} [LinearOrderedField K] (v : vec3_t K)
    (h : v.x * v.x + v.y * v.y + v.z * v.z = 0) : v.x = 0 ∧ v.y = 0 ∧ v.z = 0 := by
  have hx := mul_self_nonneg v.x
  have hy := mul_self_nonneg v.y
  have hz := mul_self_nonneg v.z
  refine ⟨?_, ?_, ?_⟩
  · exact mul_self_eq_zero.1 (le_antisymm (by linarith) hx)
  · exact mul_self_eq_zero.1 (le_antisymm (by linarith) hy)
  · exact mul_self_eq_zero.1 (le_antisymm (by linarith) hz)

theorem sqrt_eq_zero {K : Type} [LinearOrderedField K] (sqrt : K → K)
    (hsqrt : ∀ x, 0 ≤ x → 0 ≤ sqrt x ∧ sqrt x * sqrt x = x) (s : K) (hs : 0 ≤ s)
    (h : sqrt s = 0) : s = 0 := by
  have := (hsqrt s hs).2
  rw [h, mul_zero] at this
  exact this.symm

/-- Normalizing the two edges before the cross product does not change the
normalized normal. -/
theorem vec3_normalize_cross_normalize {K : Type} [LinearOrderedField K] (sqrt : K → K)
    (hsqrt : ∀ x, 0 ≤ x → 0 ≤ sqrt x ∧ sqrt x * sqrt x = x) (u v : vec3_t K) :
    vec3_normalize sqrt (vec3_cross (vec3_normalize sqrt u) (vec3_normalize sqrt v)) =
      vec3_normalize sqrt (vec3_cross u v) := by
  set a := sqrt (u.x * u.x + u.y * u.y + u.z * u.z) with ha
  set b := sqrt (v.x * v.x + v.y * v.y + v.z * v.z) with hb
  have ha0 : 0 ≤ a := (hsqrt _ (norm_sq_nonneg u)).1
  have hb0 : 0 ≤ b := (hsqrt _ (norm_sq_nonneg v)).1
  set c := (a * b)⁻¹ with hc
  have hc0 : 0 ≤ c := inv_nonneg.2 (mul_nonneg ha0 hb0)
  have hcross : vec3_cross (vec3_normalize sqrt u) (vec3_normalize sqrt v) =
      ⟨c * (vec3_cross u v).x, c * (vec3_cross u v).y, c * (vec3_cross u v).z⟩ := by
    simp only [vec3_cross, vec3_normalize, vec3_t.mk.injEq, ← ha, ← hb, hc, mul_inv]
    refine ⟨?_, ?_, ?_⟩ <;> ring
  rw [hcross]
  set w := vec3_cross u v with hw
  have hlen : sqrt (c * w.x * (c * w.x) + c * w.y * (c * w.y) + c * w.z * (c * w.z)) =
      c * sqrt (w.x * w.x + w.y * w.y + w.z * w.z) := by
    rw [← sqrt_mul_self_mul sqrt hsqrt c _ hc0 (norm_sq_nonneg w)]
    congr 1
    ring
  simp only [vec3_normalize, hlen, vec3_t.mk.injEq]
  by_cases hcz : c = 0
  · have hab : a * b = 0 := by
      rw [hc] at hcz
      exact inv_eq_zero.1 hcz
    have hw0 : w.x = 0 ∧ w.y = 0 ∧ w.z = 0 := by
      rcases mul_eq_zero.1 hab with h | h
      · obtain ⟨h1, h2, h3⟩ := norm_sq_eq_zero u (sqrt_eq_zero sqrt hsqrt _ (norm_sq_nonneg u) h)
        simp [hw, vec3_cross, h1, h2, h3]
      · obtain ⟨h1, h2, h3⟩ := norm_sq_eq_zero v (sqrt_eq_zero sqrt hsqrt _ (norm_sq_nonneg v) h)
        simp [hw, vec3_cross, h1, h2, h3]
    simp [hw0.1, hw0.2.1, hw0.2.2]
  · exact ⟨mul_div_mul_left _ _ hcz, mul_div_mul_left _ _ hcz, mul_div_mul_left _ _ hcz⟩

/-- The normalized cross product is orthogonal to both of its arguments. -/
theorem vec3_dot_normalize_cross {K : Type} [LinearOrderedField K] (sqrt : K → K)
    (u v : vec3_t K) :
    vec3_dot (vec3_normalize sqrt (vec3_cross u v)) u = 0 ∧
    vec3_dot (vec3_normalize sqrt (vec3_cross u v)) v = 0 := by
  simp only [vec3_dot, vec3_normalize, vec3_cross]
  constructor <;> ring

/-- The backface value in terms of the plain cross product of the edges. -/
theorem dot_normal_camera_eq {K : Type} [LinearOrderedField K] (sqrt : K → K)
    (hsqrt : ∀ x, 0 ≤ x → 0 ≤ sqrt x ∧ sqrt x * sqrt x = x)
    (camera_position A B C : vec3_t K) :
    dot_normal_camera sqrt camera_position (A, B, C) =
      vec3_dot (vec3_normalize sqrt (vec3_cross (vec3_sub B A) (vec3_sub C A)))
        (vec3_sub camera_position A) := by
  simp only [dot_normal_camera, vec3_normalize_cross_normalize sqrt hsqrt]

theorem dot_normal_camera_odd_permutations {K : Type} [LinearOrderedField K] (sqrt : K → K)
    (hsqrt : ∀ x, 0 ≤ x → 0 ≤ sqrt x ∧ sqrt x * sqrt x = x)
    (camera_position A B C : vec3_t K) :
    dot_normal_camera sqrt camera_position (A, C, B) =
      -dot_normal_camera sqrt camera_position (A, B, C) ∧
    dot_normal_camera sqrt camera_position (C, B, A) =
      -dot_normal_camera sqrt camera_position (A, B, C) ∧
    dot_normal_camera sqrt camera_position (B, A, C) =
      -dot_normal_camera sqrt camera_position (A, B, C) := by
  simp only [dot_normal_camera_eq sqrt hsqrt]
  obtain ⟨h1, h2⟩ := vec3_dot_normalize_cross sqrt (vec3_sub B A) (vec3_sub C A)
  have e1 : vec3_cross (vec3_sub C A) (vec3_sub B A) =
      ⟨-(vec3_cross (vec3_sub B A) (vec3_sub C A)).x,
       -(vec3_cross (vec3_sub B A) (vec3_sub C A)).y,
       -(vec3_cross (vec3_sub B A) (vec3_sub C A)).z⟩ := vec3_cross_swap _ _
  have e2 : vec3_cross (vec3_sub B C) (vec3_sub A C) =
      ⟨-(vec3_cross (vec3_sub B A) (vec3_sub C A)).x,
       -(vec3_cross (vec3_sub B A) (vec3_sub C A)).y,
       -(vec3_cross (vec3_sub B A) (vec3_sub C A)).z⟩ := by
    simp only [vec3_cross, vec3_sub, vec3_t.mk.injEq]
    refine ⟨?_, ?_, ?_⟩ <;> ring
  have e3 : vec3_cross (vec3_sub A B) (vec3_sub C B) =
      ⟨-(vec3_cross (vec3_sub B A) (vec3_sub C A)).x,
       -(vec3_cross (vec3_sub B A) (vec3_sub C A)).y,
       -(vec3_cross (vec3_sub B A) (vec3_sub C A)).z⟩ := by
    simp only [vec3_cross, vec3_sub, vec3_t.mk.injEq]
    refine ⟨?_, ?_, ?_⟩ <;> ring
  rw [e1, e2, e3, vec3_normalize_neg]
  generalize vec3_normalize sqrt (vec3_cross (vec3_sub B A) (vec3_sub C A)) = N at h1 h2 ⊢
  simp only [vec3_dot, vec3_sub] at h1 h2 ⊢
  refine ⟨?_, ?_, ?_⟩
  · ring
  · linear_combination h2
  · linear_combination h1

/-- Claim C7: for transformed vertices `A, B, C` and a fixed camera position,
with `sqrt` a square root on the non-negative numbers, the value
`dot_normal_camera` of the face taken in a reversed winding order (`A, C, B`,
`C, B, A` or `B, A, C`) is the negation of its value for `A, B, C`; so under
`CULL_BACKFACE` a face with a strictly positive value is pushed and its
reversal is skipped, and a face with a strictly negative value is skipped and
its reversal is pushed. -/
theorem backface_winding_reversal {K : Type} [LinearOrderedField K] (sqrt : K → K)
    (hsqrt : ∀ x, 0 ≤ x → 0 ≤ sqrt x ∧ sqrt x * sqrt x = x)
    (camera_position A B C : vec3_t K) (reversed : vec3_t K × vec3_t K × vec3_t K)
    (hrev : reversed = (A, C, B) ∨ reversed = (C, B, A) ∨ reversed = (B, A, C)) :
    dot_normal_camera sqrt camera_position reversed =
      -dot_normal_camera sqrt camera_position (A, B, C) ∧
    ∀ (s : state K) (color : ℕ), s.cull_method = cull_method_t.CULL_BACKFACE →
      s.camera_position = camera_position →
      (0 < dot_normal_camera sqrt camera_position (A, B, C) →
        (∃ t, face_triangle sqrt s color (A, B, C) = some t) ∧
        face_triangle sqrt s color reversed = none) ∧
      (dot_normal_camera sqrt camera_position (A, B, C) < 0 →
        face_triangle sqrt s color (A, B, C) = none ∧
        ∃ t, face_triangle sqrt s color reversed = some t) := by
  obtain ⟨p1, p2, p3⟩ := dot_normal_camera_odd_permutations sqrt hsqrt camera_position A B C
  have hneg : dot_normal_camera sqrt camera_position reversed =
      -dot_normal_camera sqrt camera_position (A, B, C) := by
    rcases hrev with rfl | rfl | rfl
    · exact p1
    · exact p2
    · exact p3
  refine ⟨hneg, fun s color hcull hcam => ?_⟩
  subst hcam
  have some_of : ∀ tv, ¬ dot_normal_camera sqrt s.camera_position tv < 0 →
      ∃ t, face_triangle sqrt s color tv = some t := by
    intro tv h
    cases hft : face_triangle sqrt s color tv with
    | some t => exact ⟨t, rfl⟩
    | none => exact absurd ((face_triangle_eq_none_iff sqrt s color tv).1 hft).2 h
  constructor
  · intro hpos
    refine ⟨some_of _ (not_lt.2 (le_of_lt hpos)), ?_⟩
    rw [face_triangle_eq_none_iff]
    exact ⟨hcull, by rw [hneg]; linarith⟩
  · intro hlt
    refine ⟨(face_triangle_eq_none_iff sqrt s color _).2 ⟨hcull, hlt⟩, some_of _ ?_⟩
    rw [hneg]
    linarith

theorem backface_winding_reversal_witness :
    (∀ x : ℝ, 0 ≤ x → 0 ≤ Real.sqrt x ∧ Real.sqrt x * Real.sqrt x = x) ∧
    dot_normal_camera Real.sqrt ⟨0, 0, 0⟩ (⟨0, 4, 5⟩, ⟨3, 0, 5⟩, ⟨0, 0, 5⟩) =
      -dot_normal_camera Real.sqrt ⟨0, 0, 0⟩ (⟨0, 0, 5⟩, ⟨3, 0, 5⟩, ⟨0, 4, 5⟩) := by
  have hsqrt : ∀ x : ℝ, 0 ≤ x → 0 ≤ Real.sqrt x ∧ Real.sqrt x * Real.sqrt x = x :=
    fun x hx => ⟨Real.sqrt_nonneg x, Real.mul_self_sqrt hx⟩
  exact ⟨hsqrt, (backface_winding_reversal Real.sqrt hsqrt ⟨0, 0, 0⟩
    ⟨0, 0, 5⟩ ⟨3, 0, 5⟩ ⟨0, 4, 5⟩ _ (Or.inr (Or.inl rfl))).1⟩

/-- Putting `h` at position `j` of `t` and the element that was there in front
of the list gives a permutation of `h :: t`. -/
theorem cons_set_perm {α : Type} (t : List α) :
    ∀ (j : ℕ) (b h : α), t[j]? = some b → (b :: t.set j h).Perm (h :: t) := by
  induction t with
  | nil => intro j b h hb; simp at hb
  | cons c t ih =>
    intro j b h hb
    cases j with
    | zero =>
      simp only [List.getElem?_cons_zero, Option.some.injEq] at hb
      subst hb
      simp only [List.set_cons_zero]
      exact List.Perm.swap _ _ _
    | succ j =>
      simp only [List.getElem?_cons_succ] at hb
      simp only [List.set_cons_succ]
      exact ((List.Perm.swap c b _).trans ((ih j b h hb).cons c)).trans (List.Perm.swap h c _)

/-- Exchanging the entries at two different positions of a list gives a
permutation of the list. -/
theorem set_set_perm_of_ne {α : Type} (l : List α) :
    ∀ (i j : ℕ) (a b : α), l[i]? = some a → l[j]? = some b → i ≠ j →
      ((l.set i b).set j a).Perm l := by
  induction l with
  | nil => intro i j a b ha; simp at ha
  | cons h t ih =>
    intro i j a b ha hb hij
    cases i with
    | zero =>
      cases j with
      | zero => exact absurd rfl hij
      | succ j =>
        simp only [List.getElem?_cons_zero, Option.some.injEq] at ha
        simp only [List.getElem?_cons_succ] at hb
        subst ha
        simp only [List.set_cons_zero, List.set_cons_succ]
        exact cons_set_perm t j b h hb
    | succ i =>
      cases j with
      | zero =>
        simp only [List.getElem?_cons_zero, Option.some.injEq] at hb
        simp only [List.getElem?_cons_succ] at ha
        subst hb
        simp only [List.set_cons_zero, List.set_cons_succ]
        exact cons_set_perm t i a h ha
      | succ j =>
        simp only [List.getElem?_cons_succ] at ha hb
        simp only [List.set_cons_succ]
        exact (ih i j a b ha hb (by omega)).cons h

section depth_sort_permutation

variable {K : Type} [LinearOrder K]

theorem sort_compare_swap_perm (ts : List (triangle_t K)) (i j : ℕ) :
    (sort_compare_swap ts i j).Perm ts := by
  unfold sort_compare_swap
  split
  · rename_i ti tj hti htj
    split_ifs with hlt
    · have hne : i ≠ j := by
        rintro rfl
        rw [hti] at htj
        cases htj
        exact lt_irrefl _ hlt
      exact set_set_perm_of_ne ts i j ti tj hti htj hne
    · exact List.Perm.refl _
  · exact List.Perm.refl _

theorem sort_inner_loop_perm (i : ℕ) (k : ℕ) :
    ∀ (j : ℕ) (ts : List (triangle_t K)), (sort_inner_loop i k j ts).Perm ts := by
  induction k with
  | zero => intro j ts; exact List.Perm.refl _
  | succ k ih =>
    intro j ts
    rw [sort_inner_loop]
    exact (ih (j + 1) _).trans (sort_compare_swap_perm ts i j)

theorem sort_outer_loop_perm (n : ℕ) (k : ℕ) :
    ∀ (i : ℕ) (ts : List (triangle_t K)), (sort_outer_loop n k i ts).Perm ts := by
  induction k with
  | zero => intro i ts; exact List.Perm.refl _
  | succ k ih =>
    intro i ts
    rw [sort_outer_loop]
    exact (ih (i + 1) _).trans (sort_inner_loop_perm i _ i ts)

theorem depth_sort_perm (ts : List (triangle_t K)) : (depth_sort ts).Perm ts :=
  sort_outer_loop_perm _ _ _ _

end depth_sort_permutation
/-- The fields of what `update` returns when every face index is inside
`mesh.vertices`. -/
theorem update_fields {K : Type} [LinearOrderedField K] (lib : vector_lib K)
    (FRAME_TARGET_TIME : ℤ) (ticks_before ticks_after : ℕ) (s : state K)
    (hvalid : valid_faces s.mesh) :
    ∃ r, update lib FRAME_TARGET_TIME ticks_before ticks_after s = some r ∧
      r.delay =
        (if time_to_wait FRAME_TARGET_TIME ticks_before s.previous_frame_time > 0 ∧
            time_to_wait FRAME_TARGET_TIME ticks_before s.previous_frame_time ≤ FRAME_TARGET_TIME
          then some (time_to_wait FRAME_TARGET_TIME ticks_before s.previous_frame_time)
          else none) ∧
      r.state.previous_frame_time = to_int32 ticks_after ∧
      r.state.mesh.rotation =
        ⟨s.mesh.rotation.x + 1 / 100, s.mesh.rotation.y + 1 / 100, s.mesh.rotation.z + 2 / 100⟩ ∧
      r.state.mesh.vertices = s.mesh.vertices ∧
      r.state.mesh.faces = s.mesh.faces ∧
      r.state.cull_method = s.cull_method ∧
      r.state.render_method = s.render_method := by
  unfold update
  simp only
  rw [face_loop_eq]
  · exact ⟨_, rfl, rfl, rfl, rfl, rfl, rfl, rfl, rfl⟩
  · intro f hf
    obtain ⟨ha, hb, hc⟩ := hvalid f hf
    exact face_transformed_vertices_valid lib _ f ha hb hc

/-- Claim C11: the triangle list is rebuilt from scratch by every call of
`update`: what `update` returns is the same whatever `triangles_to_render`
held before the call, and (face indices inside `mesh.vertices`) every triangle
of the new list is the triangle of a face of the mesh, so the list is at most
as long as the list of faces. -/
theorem update_rebuilds_triangles {K : Type} [LinearOrderedField K] (lib : vector_lib K)
    (FRAME_TARGET_TIME : ℤ) (ticks_before ticks_after : ℕ) (s : state K)
    (hvalid : valid_faces s.mesh) (previous : List (triangle_t K)) :
    update lib FRAME_TARGET_TIME ticks_before ticks_after
        { s with triangles_to_render := previous } =
      update lib FRAME_TARGET_TIME ticks_before ticks_after s ∧
    ∃ r, update lib FRAME_TARGET_TIME ticks_before ticks_after s = some r ∧
      r.state.triangles_to_render.length ≤ s.mesh.faces.length ∧
      ∀ t ∈ r.state.triangles_to_render, ∃ f ∈ s.mesh.faces, ∃ tv,
        face_transformed_vertices lib r.state.mesh f = some tv ∧
        face_triangle lib.sqrt r.state f.color tv = some t := by
  refine ⟨rfl, ?_⟩
  obtain ⟨r, hr, -, hfaces, -, hts⟩ :=
    update_eq lib FRAME_TARGET_TIME ticks_before ticks_after s hvalid
  refine ⟨r, hr, ?_, ?_⟩
  · rw [hts, depth_sort_length, ← hfaces]
    exact List.length_filterMap_le _ _
  · intro t ht
    rw [hts] at ht
    have ht' := (depth_sort_perm _).mem_iff.1 ht
    obtain ⟨f, hf, hft⟩ := List.mem_filterMap.1 ht'
    cases htv : face_transformed_vertices lib r.state.mesh f with
    | none => rw [htv] at hft; cases hft
    | some tv =>
      rw [htv] at hft
      exact ⟨f, hfaces ▸ hf, tv, htv, hft⟩

theorem update_rebuilds_triangles_witness :
    valid_faces (⟨[⟨1, 1, 1⟩, ⟨-1, 1, 1⟩, ⟨1, -1, 1⟩], [⟨1, 2, 3, 5⟩, ⟨1, 3, 2, 6⟩],
      ⟨0, 0, 0⟩⟩ : mesh_t ℚ) ∧
    update (⟨fun x => x, fun v _ => v, fun v _ => v, fun v _ => v⟩ : vector_lib ℚ) 33 10 20
        ⟨[⟨(⟨0, 0⟩, ⟨1, 0⟩, ⟨0, 1⟩), 9, 4⟩], 0, ⟨0, 0, 0⟩, 640,
          ⟨[⟨1, 1, 1⟩, ⟨-1, 1, 1⟩, ⟨1, -1, 1⟩], [⟨1, 2, 3, 5⟩, ⟨1, 3, 2, 6⟩], ⟨0, 0, 0⟩⟩,
          cull_method_t.CULL_BACKFACE, render_method_t.RENDER_WIRE, 800, 600⟩ =
      update (⟨fun x => x, fun v _ => v, fun v _ => v, fun v _ => v⟩ : vector_lib ℚ) 33 10 20
        ⟨[], 0, ⟨0, 0, 0⟩, 640,
          ⟨[⟨1, 1, 1⟩, ⟨-1, 1, 1⟩, ⟨1, -1, 1⟩], [⟨1, 2, 3, 5⟩, ⟨1, 3, 2, 6⟩], ⟨0, 0, 0⟩⟩,
          cull_method_t.CULL_BACKFACE, render_method_t.RENDER_WIRE, 800, 600⟩ := by
  have hv : valid_faces (⟨[⟨1, 1, 1⟩, ⟨-1, 1, 1⟩, ⟨1, -1, 1⟩], [⟨1, 2, 3, 5⟩, ⟨1, 3, 2, 6⟩],
      ⟨0, 0, 0⟩⟩ : mesh_t ℚ) := by
    intro f hf
    simp only [List.mem_cons, List.mem_singleton, List.not_mem_nil, or_false] at hf
    rcases hf with rfl | rfl <;> decide
  exact ⟨hv, (update_rebuilds_triangles
    (⟨fun x => x, fun v _ => v, fun v _ => v, fun v _ => v⟩ : vector_lib ℚ) 33 10 20
    ⟨[], 0, ⟨0, 0, 0⟩, 640,
      ⟨[⟨1, 1, 1⟩, ⟨-1, 1, 1⟩, ⟨1, -1, 1⟩], [⟨1, 2, 3, 5⟩, ⟨1, 3, 2, 6⟩], ⟨0, 0, 0⟩⟩,
      cull_method_t.CULL_BACKFACE, render_method_t.RENDER_WIRE, 800, 600⟩ hv
    [⟨(⟨0, 0⟩, ⟨1, 0⟩, ⟨0, 1⟩), 9, 4⟩]).1⟩

/-- Claim C12: frame pacing in `update`, with `T = FRAME_TARGET_TIME` (an
`int`) and `e = now - previous_frame_time` the elapsed time, `now` being the
value of the first `SDL_GetTicks()`.  If `0 <= e < T` the call
`SDL_Delay (T - e)` is made, and if `e >= T` no call of `SDL_Delay` is made
(`e` below `2 ^ 32`, the range of the tick counter).  The same holds with `e`
the value that the code computes in `Uint32`, `(now - previous_frame_time)
mod 2 ^ 32`, without any condition on the two time stamps. -/
theorem update_frame_pacing {K : Type} [LinearOrderedField K] (lib : vector_lib K)
    (FRAME_TARGET_TIME : ℤ) (ticks_before ticks_after : ℕ) (s : state K)
    (hvalid : valid_faces s.mesh)
    (hT : -2 ^ 31 ≤ FRAME_TARGET_TIME ∧ FRAME_TARGET_TIME < 2 ^ 31) :
    ∃ r, update lib FRAME_TARGET_TIME ticks_before ticks_after s = some r ∧
      (0 ≤ (ticks_before : ℤ) - s.previous_frame_time →
        (ticks_before : ℤ) - s.previous_frame_time < 2 ^ 32 →
        ((ticks_before : ℤ) - s.previous_frame_time < FRAME_TARGET_TIME →
          r.delay = some (FRAME_TARGET_TIME - ((ticks_before : ℤ) - s.previous_frame_time))) ∧
        (FRAME_TARGET_TIME ≤ (ticks_before : ℤ) - s.previous_frame_time →
          r.delay = none)) ∧
      (((ticks_before : ℤ) - s.previous_frame_time) % 2 ^ 32 < FRAME_TARGET_TIME →
        r.delay = some
          (FRAME_TARGET_TIME - ((ticks_before : ℤ) - s.previous_frame_time) % 2 ^ 32)) ∧
      (FRAME_TARGET_TIME ≤ ((ticks_before : ℤ) - s.previous_frame_time) % 2 ^ 32 →
        r.delay = none) := by
  obtain ⟨r, hr, hdelay, -⟩ :=
    update_fields lib FRAME_TARGET_TIME ticks_before ticks_after s hvalid
  have hlt : ((ticks_before : ℤ) - s.previous_frame_time) % 2 ^ 32 < FRAME_TARGET_TIME →
      r.delay = some
        (FRAME_TARGET_TIME - ((ticks_before : ℤ) - s.previous_frame_time) % 2 ^ 32) := by
    intro he
    rw [hdelay]
    simp only [time_to_wait, to_int32] at *
    have h1 : (FRAME_TARGET_TIME - ((ticks_before : ℤ) - s.previous_frame_time) + 2 ^ 31) % 2 ^ 32
        - 2 ^ 31 = FRAME_TARGET_TIME - ((ticks_before : ℤ) - s.previous_frame_time) % 2 ^ 32 := by
      omega
    rw [h1, if_pos (by omega)]
  have hge : FRAME_TARGET_TIME ≤ ((ticks_before : ℤ) - s.previous_frame_time) % 2 ^ 32 →
      r.delay = none := by
    intro he
    rw [hdelay]
    simp only [time_to_wait, to_int32] at *
    rw [if_neg (by omega)]
  refine ⟨r, hr, fun h0 h1 => ?_, hlt, hge⟩
  have hmod : ((ticks_before : ℤ) - s.previous_frame_time) % 2 ^ 32 =
      (ticks_before : ℤ) - s.previous_frame_time := by omega
  rw [hmod] at hlt hge
  exact ⟨hlt, hge⟩

theorem update_frame_pacing_witness :
    valid_faces (⟨[⟨1, 1, 1⟩, ⟨-1, 1, 1⟩, ⟨1, -1, 1⟩], [⟨1, 2, 3, 5⟩], ⟨0, 0, 0⟩⟩ : mesh_t ℚ) ∧
    ((-2 ^ 31 : ℤ) ≤ 33 ∧ (33 : ℤ) < 2 ^ 31) ∧
    (∃ r, update (⟨fun x => x, fun v _ => v, fun v _ => v, fun v _ => v⟩ : vector_lib ℚ)
        33 1010 1033
        ⟨[], 1000, ⟨0, 0, 0⟩, 640,
          ⟨[⟨1, 1, 1⟩, ⟨-1, 1, 1⟩, ⟨1, -1, 1⟩], [⟨1, 2, 3, 5⟩], ⟨0, 0, 0⟩⟩,
          cull_method_t.CULL_BACKFACE, render_method_t.RENDER_WIRE, 800, 600⟩ = some r ∧
      r.delay = some 23) := by
  have hv : valid_faces
      (⟨[⟨1, 1, 1⟩, ⟨-1, 1, 1⟩, ⟨1, -1, 1⟩], [⟨1, 2, 3, 5⟩], ⟨0, 0, 0⟩⟩ : mesh_t ℚ) := by
    intro f hf
    simp only [List.mem_singleton] at hf
    subst hf
    decide
  have hT : (-2 ^ 31 : ℤ) ≤ 33 ∧ (33 : ℤ) < 2 ^ 31 := by decide
  obtain ⟨r, hr, h1, -, -⟩ := update_frame_pacing
    (⟨fun x => x, fun v _ => v, fun v _ => v, fun v _ => v⟩ : vector_lib ℚ) 33 1010 1033
    ⟨[], 1000, ⟨0, 0, 0⟩, 640,
      ⟨[⟨1, 1, 1⟩, ⟨-1, 1, 1⟩, ⟨1, -1, 1⟩], [⟨1, 2, 3, 5⟩], ⟨0, 0, 0⟩⟩,
      cull_method_t.CULL_BACKFACE, render_method_t.RENDER_WIRE, 800, 600⟩ hv hT
  exact ⟨hv, hT, r, hr, (h1 (by decide) (by decide)).1 (by decide)⟩

/-- Claim C13: for every number `N` of frames and every initial rotation `r`,
after `N` calls of `update` (face indices inside `mesh.vertices`)
`mesh.rotation` is `r + N * (0.01, 0.01, 0.02)` in exact arithmetic, whatever
the cull mode and the render mode are in each frame, whatever the tick values
are, and whatever the mesh holds. -/
theorem rotation_after_frames {K : Type} [LinearOrderedField K] (lib : vector_lib K)
    (FRAME_TARGET_TIME : ℤ) (frames : List frame_input) (s : state K)
    (hvalid : valid_faces s.mesh) :
    ∃ s', run_frames lib FRAME_TARGET_TIME frames s = some s' ∧
      s'.mesh.rotation =
        ⟨s.mesh.rotation.x + (frames.length : K) * (1 / 100),
         s.mesh.rotation.y + (frames.length : K) * (1 / 100),
         s.mesh.rotation.z + (frames.length : K) * (2 / 100)⟩ := by
  induction frames generalizing s with
  | nil =>
    refine ⟨s, rfl, ?_⟩
    simp
  | cons f rest ih =>
    obtain ⟨r, hr, -, -, hrot, hverts, hfaces, -, -⟩ :=
      update_fields lib FRAME_TARGET_TIME f.ticks_before f.ticks_after
        { s with cull_method := f.cull_method, render_method := f.render_method } hvalid
    have hvalid' : valid_faces r.state.mesh := by
      intro g hg
      rw [hfaces] at hg
      rw [hverts]
      exact hvalid g hg
    obtain ⟨s', hs', hrot'⟩ := ih r.state hvalid'
    refine ⟨s', ?_, ?_⟩
    · simp only [run_frames, hr, hs']
    · rw [hrot', hrot]
      simp only [List.length_cons, Nat.cast_add, Nat.cast_one, vec3_t.mk.injEq]
      refine ⟨?_, ?_, ?_⟩ <;> ring

theorem rotation_after_frames_witness :
    valid_faces (⟨[⟨1, 1, 1⟩, ⟨-1, 1, 1⟩, ⟨1, -1, 1⟩], [⟨1, 2, 3, 5⟩], ⟨0, 0, 0⟩⟩ : mesh_t ℚ) ∧
    ∃ s', run_frames (⟨fun x => x, fun v _ => v, fun v _ => v, fun v _ => v⟩ : vector_lib ℚ) 33
        [⟨cull_method_t.CULL_BACKFACE, render_method_t.RENDER_WIRE, 10, 33⟩,
         ⟨cull_method_t.CULL_NONE, render_method_t.RENDER_FILL_TRIANGLE, 40, 66⟩,
         ⟨cull_method_t.CULL_NONE, render_method_t.RENDER_WIRE_VERTEX, 70, 99⟩]
        ⟨[], 0, ⟨0, 0, 0⟩, 640,
          ⟨[⟨1, 1, 1⟩, ⟨-1, 1, 1⟩, ⟨1, -1, 1⟩], [⟨1, 2, 3, 5⟩], ⟨0, 0, 0⟩⟩,
          cull_method_t.CULL_BACKFACE, render_method_t.RENDER_WIRE, 800, 600⟩ = some s' ∧
      s'.mesh.rotation = ⟨3 / 100, 3 / 100, 6 / 100⟩ := by
  have hv : valid_faces
      (⟨[⟨1, 1, 1⟩, ⟨-1, 1, 1⟩, ⟨1, -1, 1⟩], [⟨1, 2, 3, 5⟩], ⟨0, 0, 0⟩⟩ : mesh_t ℚ) := by
    intro f hf
    simp only [List.mem_singleton] at hf
    subst hf
    decide
  obtain ⟨s', hs', hrot⟩ := rotation_after_frames
    (⟨fun x => x, fun v _ => v, fun v _ => v, fun v _ => v⟩ : vector_lib ℚ) 33
    [⟨cull_method_t.CULL_BACKFACE, render_method_t.RENDER_WIRE, 10, 33⟩,
     ⟨cull_method_t.CULL_NONE, render_method_t.RENDER_FILL_TRIANGLE, 40, 66⟩,
     ⟨cull_method_t.CULL_NONE, render_method_t.RENDER_WIRE_VERTEX, 70, 99⟩]
    ⟨[], 0, ⟨0, 0, 0⟩, 640,
      ⟨[⟨1, 1, 1⟩, ⟨-1, 1, 1⟩, ⟨1, -1, 1⟩], [⟨1, 2, 3, 5⟩], ⟨0, 0, 0⟩⟩,
      cull_method_t.CULL_BACKFACE, render_method_t.RENDER_WIRE, 800, 600⟩ hv
  refine ⟨hv, s', hs', ?_⟩
  rw [hrot]
  norm_num
/-- The three compare-and-swap steps permute the vertices, and vertices with
equal `y` keep their order. -/
theorem sort_vertices_perm_stable (v : vertices) :
    ∃ σ : Equiv.Perm (Fin 3),
      (∀ k : Fin 3, (sort_vertices v).vertex k = v.vertex (σ k)) ∧
      (∀ a b : Fin 3, a < b → (v.vertex (σ a)).2 = (v.vertex (σ b)).2 → σ a < σ b) := by
  simp only [sort_vertices, swap_0_1, swap_1_2, int_swap]
  split_ifs
  all_goals first
    | (refine ⟨Equiv.refl _, ?_, ?_⟩
       · intro k; fin_cases k <;> rfl
       · intro a b hab hy
         fin_cases a <;> fin_cases b <;>
           simp_all [vertices.vertex])
    | (refine ⟨Equiv.swap 0 1, ?_, ?_⟩
       · intro k; fin_cases k <;> rfl
       · intro a b hab hy
         fin_cases a <;> fin_cases b <;>
           simp_all [vertices.vertex, Equiv.swap_apply_def])
    | (refine ⟨Equiv.swap 1 2, ?_, ?_⟩
       · intro k; fin_cases k <;> rfl
       · intro a b hab hy
         fin_cases a <;> fin_cases b <;>
           simp_all [vertices.vertex, Equiv.swap_apply_def])
    | (refine ⟨Equiv.swap 0 2, ?_, ?_⟩
       · intro k; fin_cases k <;> rfl
       · intro a b hab hy
         fin_cases a <;> fin_cases b <;>
           simp_all [vertices.vertex, Equiv.swap_apply_def])
    | (refine ⟨(Equiv.swap 0 1).trans (Equiv.swap 1 2), ?_, ?_⟩
       · intro k; fin_cases k <;> rfl
       · intro a b hab hy
         fin_cases a <;> fin_cases b <;>
           simp_all [vertices.vertex, Equiv.swap_apply_def])
    | (refine ⟨(Equiv.swap 1 2).trans (Equiv.swap 0 1), ?_, ?_⟩
       · intro k; fin_cases k <;> rfl
       · intro a b hab hy
         fin_cases a <;> fin_cases b <;>
           simp_all [vertices.vertex, Equiv.swap_apply_def])

/-- Claim C14: the three compare-and-swap steps at the start of
`draw_filled_triangle` are a stable sort of the three vertices by `y`: there
is a permutation `σ` of the three positions such that the vertex at output
position `k` is the input vertex `σ k` (its `x` and `y` together), the output
has `y0 <= y1 <= y2`, and two vertices with equal `y` keep their input
order. -/
theorem sort_vertices_stable (v : vertices) :
    ∃ σ : Equiv.Perm (Fin 3),
      (∀ k : Fin 3, (sort_vertices v).vertex k = v.vertex (σ k)) ∧
      ((sort_vertices v).y0 ≤ (sort_vertices v).y1 ∧
        (sort_vertices v).y1 ≤ (sort_vertices v).y2) ∧
      (∀ a b : Fin 3, a < b → (v.vertex (σ a)).2 = (v.vertex (σ b)).2 → σ a < σ b) := by
  obtain ⟨σ, h1, h2⟩ := sort_vertices_perm_stable v
  exact ⟨σ, h1, sort_vertices_sorted v, h2⟩
section depth_sort_steps

variable {K : Type} [LinearOrder K]

theorem sort_inner_loop_eq_foldl (i : ℕ) (k : ℕ) :
    ∀ (j : ℕ) (ts : List (triangle_t K)),
      sort_inner_loop i k j ts =
        (sort_steps_inner i k j).foldl (fun l p => sort_compare_swap l p.1 p.2) ts := by
  induction k with
  | zero => intro j ts; rfl
  | succ k ih =>
    intro j ts
    rw [sort_inner_loop, sort_steps_inner, List.foldl_cons, ih]

theorem sort_outer_loop_eq_foldl (n : ℕ) (k : ℕ) :
    ∀ (i : ℕ) (ts : List (triangle_t K)),
      sort_outer_loop n k i ts =
        (sort_steps_outer n k i).foldl (fun l p => sort_compare_swap l p.1 p.2) ts := by
  induction k with
  | zero => intro i ts; rfl
  | succ k ih =>
    intro i ts
    rw [sort_outer_loop, sort_steps_outer, List.foldl_append, ih, sort_inner_loop_eq_foldl]

theorem sort_steps_inner_length (i : ℕ) (k : ℕ) :
    ∀ j : ℕ, (sort_steps_inner i k j).length = k := by
  induction k with
  | zero => intro j; rfl
  | succ k ih => intro j; rw [sort_steps_inner, List.length_cons, ih]

theorem sort_steps_outer_length (n : ℕ) (k : ℕ) :
    ∀ i : ℕ, i + k = n → 2 * (sort_steps_outer n k i).length = k * (k + 1) := by
  induction k with
  | zero => intro i _; rfl
  | succ k ih =>
    intro i hik
    rw [sort_steps_outer, List.length_append, sort_steps_inner_length, Nat.mul_add,
      ih (i + 1) (by omega)]
    have : n - i = k + 1 := by omega
    rw [this]
    ring

theorem sort_steps_inner_bounds (i : ℕ) (k : ℕ) :
    ∀ (j : ℕ) (p : ℕ × ℕ), p ∈ sort_steps_inner i k j → p.1 = i ∧ j ≤ p.2 ∧ p.2 < j + k := by
  induction k with
  | zero => intro j p hp; simp [sort_steps_inner] at hp
  | succ k ih =>
    intro j p hp
    rw [sort_steps_inner, List.mem_cons] at hp
    rcases hp with rfl | hp
    · exact ⟨rfl, le_refl _, by omega⟩
    · obtain ⟨h1, h2, h3⟩ := ih (j + 1) p hp
      exact ⟨h1, by omega, by omega⟩

theorem sort_steps_outer_bounds (n : ℕ) (k : ℕ) :
    ∀ (i : ℕ) (p : ℕ × ℕ), i + k ≤ n → p ∈ sort_steps_outer n k i → p.1 ≤ p.2 ∧ p.2 < n := by
  induction k with
  | zero => intro i p _ hp; simp [sort_steps_outer] at hp
  | succ k ih =>
    intro i p hik hp
    rw [sort_steps_outer, List.mem_append] at hp
    rcases hp with hp | hp
    · obtain ⟨h1, h2, h3⟩ := sort_steps_inner_bounds i _ i p hp
      exact ⟨by omega, by omega⟩
    · exact ih (i + 1) p (by omega) hp

/-- Claim C15: the depth sort of `update` is a quadratic comparison sort that
is not stable.  On a list of `n` triangles it runs its compare-and-swap on the
pairs `(i, j)`, `i <= j < n`, of `sort_steps n`, which are `n * (n + 1) / 2`
pairs, and does nothing else; and on the list of three triangles with depths
`1, 1, 2` and colours `10, 20, 30` the output is the list reversed, so the two
triangles of depth `1` come out in the order opposite to their input order. -/
theorem depth_sort_quadratic_unstable :
    (∀ ts : List (triangle_t K),
      depth_sort ts =
        (sort_steps ts.length).foldl (fun l p => sort_compare_swap l p.1 p.2) ts ∧
      2 * (sort_steps ts.length).length = ts.length * (ts.length + 1) ∧
      ∀ p ∈ sort_steps ts.length, p.1 ≤ p.2 ∧ p.2 < ts.length) ∧
    depth_sort ([⟨(⟨0, 0⟩, ⟨1, 0⟩, ⟨0, 1⟩), 10, 1⟩, ⟨(⟨0, 0⟩, ⟨1, 0⟩, ⟨0, 1⟩), 20, 1⟩,
        ⟨(⟨0, 0⟩, ⟨1, 0⟩, ⟨0, 1⟩), 30, 2⟩] : List (triangle_t ℤ)) =
      [⟨(⟨0, 0⟩, ⟨1, 0⟩, ⟨0, 1⟩), 30, 2⟩, ⟨(⟨0, 0⟩, ⟨1, 0⟩, ⟨0, 1⟩), 20, 1⟩,
        ⟨(⟨0, 0⟩, ⟨1, 0⟩, ⟨0, 1⟩), 10, 1⟩] := by
  refine ⟨fun ts => ⟨?_, ?_, ?_⟩, by decide⟩
  · exact sort_outer_loop_eq_foldl ts.length ts.length 0 ts
  · exact sort_steps_outer_length ts.length ts.length 0 (by omega)
  · intro p hp
    exact sort_steps_outer_bounds ts.length ts.length 0 p (by omega) hp

end depth_sort_steps

section depth_sort_permutation_claim

variable {K : Type} [LinearOrder K]

/-- Claim C16: the depth-sort loop of `update` only exchanges entries: for
every input list the output is a permutation of the input, so it has the same
length, holds every triangle record (points, colour and `avg_depth` together)
as many times as the input does, and holds no other record. -/
theorem depth_sort_permutation (ts : List (triangle_t K)) :
    (depth_sort ts).Perm ts ∧
    (depth_sort ts).length = ts.length ∧
    (∀ t : triangle_t K, (depth_sort ts).count t = ts.count t) ∧
    (∀ t : triangle_t K, t ∈ depth_sort ts ↔ t ∈ ts) :=
  ⟨depth_sort_perm ts, (depth_sort_perm ts).length_eq,
    fun t => (depth_sort_perm ts).count_eq t, fun _ => (depth_sort_perm ts).mem_iff⟩

end depth_sort_permutation_claim
/-- The divisors of the floating-point divisions of `draw_filled_triangle`, in
execution order, from the vertices after the ordering by `y`. -/
theorem draw_filled_triangle_divisors (x0 y0 x1 y1 x2 y2 : ℤ) (color : ℕ) (v : vertices)
    (hv : sort_vertices ⟨x0, y0, x1, y1, x2, y2⟩ = v) :
    (draw_filled_triangle x0 y0 x1 y1 x2 y2 color).divisors =
      if v.y1 = v.y2 then [v.y1 - v.y0, v.y2 - v.y0]
      else if v.y0 = v.y1 then [v.y2 - v.y0, v.y2 - v.y1]
      else [v.y2 - v.y0, v.y1 - v.y0, v.y1 - v.y0, v.y2 - v.y1, v.y2 - v.y1] := by
  have hs := sort_vertices_sorted ⟨x0, y0, x1, y1, x2, y2⟩
  rw [hv] at hs
  unfold draw_filled_triangle
  rw [hv]
  simp only
  by_cases e12 : v.y1 = v.y2
  · simp only [if_pos e12, fill_flat_bottom_triangle]
  · by_cases e01 : v.y0 = v.y1
    · simp only [if_neg e12, if_pos e01, fill_flat_top_triangle]
    · simp only [if_neg e12, if_neg e01, split_x_eq v (by omega), fill_result.append,
        fill_flat_bottom_triangle, fill_flat_top_triangle, List.cons_append, List.nil_append]

/-- Claim C17: a division by zero is made during `draw_filled_triangle` if and
only if the three input vertices have the same `y`.  When the three `y` are
not all equal every divisor used (listed from the vertices ordered by `y`:
`y1 - y0, y2 - y0` in the flat-bottom case, `y2 - y0, y2 - y1` in the flat-top
case, and `y2 - y0` for the split point, `y1 - y0` twice and `y2 - y1` twice
for the two sub-fills in the general case) is strictly positive; when they are
all equal the two inverse slopes of the flat-bottom fill both divide by
zero. -/
theorem draw_filled_triangle_division_by_zero (x0 y0 x1 y1 x2 y2 : ℤ) (color : ℕ) :
    ((0 : ℤ) ∈ (draw_filled_triangle x0 y0 x1 y1 x2 y2 color).divisors ↔
      (y0 = y1 ∧ y1 = y2)) ∧
    (¬ (y0 = y1 ∧ y1 = y2) →
      ∀ d ∈ (draw_filled_triangle x0 y0 x1 y1 x2 y2 color).divisors, 0 < d) ∧
    ((y0 = y1 ∧ y1 = y2) →
      (draw_filled_triangle x0 y0 x1 y1 x2 y2 color).divisors = [0, 0]) ∧
    (∀ v : vertices, sort_vertices ⟨x0, y0, x1, y1, x2, y2⟩ = v →
      (draw_filled_triangle x0 y0 x1 y1 x2 y2 color).divisors =
        if v.y1 = v.y2 then [v.y1 - v.y0, v.y2 - v.y0]
        else if v.y0 = v.y1 then [v.y2 - v.y0, v.y2 - v.y1]
        else [v.y2 - v.y0, v.y1 - v.y0, v.y1 - v.y0, v.y2 - v.y1, v.y2 - v.y1]) := by
  have hd := draw_filled_triangle_divisors x0 y0 x1 y1 x2 y2 color _ rfl
  obtain ⟨hmin, hmax⟩ := sort_vertices_min_max ⟨x0, y0, x1, y1, x2, y2⟩
  obtain ⟨h01, h12⟩ := sort_vertices_sorted ⟨x0, y0, x1, y1, x2, y2⟩
  simp only at hmin hmax
  refine ⟨?_, ?_, ?_, fun v hv => draw_filled_triangle_divisors x0 y0 x1 y1 x2 y2 color v hv⟩
  all_goals rw [hd]
  all_goals generalize sort_vertices ⟨x0, y0, x1, y1, x2, y2⟩ = v at *
  · split_ifs with e12 e01
    · simp only [List.mem_cons, List.mem_singleton, List.not_mem_nil, or_false]
      omega
    · simp only [List.mem_cons, List.mem_singleton, List.not_mem_nil, or_false]
      omega
    · simp only [List.mem_cons, List.mem_singleton, List.not_mem_nil, or_false]
      omega
  · intro hne d hdm
    split_ifs at hdm with e12 e01
    all_goals simp only [List.mem_cons, List.mem_singleton, List.not_mem_nil, or_false] at hdm
    all_goals omega
  · intro hall
    have e12 : v.y1 = v.y2 := by omega
    have e01 : v.y1 - v.y0 = 0 := by omega
    have e02 : v.y2 - v.y0 = 0 := by omega
    rw [if_pos e12, e01, e02]

theorem trunc_between (q : ℚ) (m M : ℤ) (h1 : (m : ℚ) ≤ q) (h2 : q ≤ (M : ℚ)) :
    m ≤ trunc q ∧ trunc q ≤ M := by
  unfold trunc
  split_ifs
  · exact ⟨Int.le_floor.2 h1, by exact_mod_cast (Int.floor_le q).trans h2⟩
  · exact ⟨by exact_mod_cast h1.trans (Int.le_ceil q), Int.ceil_le.2 h2⟩

theorem round_half_even_ge (q : ℚ) (n : ℤ) (h : (n : ℚ) ≤ q) : n ≤ round_half_even q := by
  have hf : n ≤ ⌊q⌋ := Int.le_floor.2 h
  unfold round_half_even
  split_ifs <;> omega

theorem round_half_even_le (q : ℚ) (n : ℤ) (h : q ≤ (n : ℚ)) : round_half_even q ≤ n := by
  have h1 : (⌊q⌋ : ℚ) ≤ q := Int.floor_le q
  have hf : ⌊q⌋ ≤ n := by exact_mod_cast h1.trans h
  unfold round_half_even
  split_ifs with a b c
  · exact hf
  · have : (⌊q⌋ : ℚ) < n := by linarith
    have : ⌊q⌋ < n := by exact_mod_cast this
    omega
  · exact hf
  · have hq : ¬ (q - ⌊q⌋ < 1 / 2) := a
    have : (⌊q⌋ : ℚ) < n := by linarith
    have : ⌊q⌋ < n := by exact_mod_cast this
    omega

/-- A point `n * u` of the grid of step `u` below `x` is below the rounding of
`x` to that grid. -/
theorem grid_round_ge (x u : ℚ) (n : ℤ) (hu : 0 < u) (h : (n : ℚ) * u ≤ x) :
    (n : ℚ) * u ≤ (round_half_even (x / u) : ℚ) * u := by
  have h1 : (n : ℚ) ≤ x / u := (le_div_iff₀ hu).2 h
  have h2 : ((n : ℤ) : ℚ) ≤ (round_half_even (x / u) : ℚ) := by
    exact_mod_cast round_half_even_ge _ _ h1
  exact mul_le_mul_of_nonneg_right h2 (le_of_lt hu)

/-- A point `n * u` of the grid of step `u` above `x` is above the rounding of
`x` to that grid. -/
theorem grid_round_le (x u : ℚ) (n : ℤ) (hu : 0 < u) (h : x ≤ (n : ℚ) * u) :
    (round_half_even (x / u) : ℚ) * u ≤ (n : ℚ) * u := by
  have h1 : x / u ≤ (n : ℚ) := (div_le_iff₀ hu).2 h
  have h2 : (round_half_even (x / u) : ℚ) ≤ ((n : ℤ) : ℚ) := by
    exact_mod_cast round_half_even_le _ _ h1
  exact mul_le_mul_of_nonneg_right h2 (le_of_lt hu)

/-- An integer is a point of every grid whose step is `2 ^ k` with `k <= 0`. -/
theorem int_on_grid (m : ℤ) (k : ℤ) (hk : k ≤ 0) :
    ∃ n : ℤ, (n : ℚ) * (2 : ℚ) ^ k = (m : ℚ) := by
  obtain ⟨j, hj⟩ := Int.eq_ofNat_of_zero_le (by omega : 0 ≤ -k)
  have hk' : k = -(j : ℤ) := by omega
  refine ⟨m * 2 ^ j, ?_⟩
  rw [hk', zpow_neg, zpow_natCast]
  push_cast
  field_simp

theorem log_two_le_of_lt (q : ℚ) (hq : 0 < q) (e : ℤ) (h : q < (2 : ℚ) ^ (e + 1)) :
    Int.log 2 q ≤ e := by
  have := (Int.lt_zpow_iff_log_lt (by norm_num : 1 < 2) hq).1
    (by exact_mod_cast h : q < ((2 : ℕ) : ℚ) ^ (e + 1))
  omega

theorem le_log_two_of_le (q : ℚ) (hq : 0 < q) (e : ℤ) (h : (2 : ℚ) ^ e ≤ q) :
    e ≤ Int.log 2 q :=
  (Int.zpow_le_iff_le_log (by norm_num : 1 < 2) hq).1
    (by exact_mod_cast h : ((2 : ℕ) : ℚ) ^ e ≤ q)

theorem two_zpow_log_le (q : ℚ) (hq : 0 < q) : (2 : ℚ) ^ Int.log 2 q ≤ q := by
  have := Int.zpow_log_le_self (by norm_num : 1 < 2) hq
  exact_mod_cast this
theorem binary32_magnitude_nonneg (q : ℚ) : 0 ≤ binary32_magnitude q := by
  unfold binary32_magnitude
  have hu : (0 : ℚ) < 2 ^ binary32_step_exponent q := zpow_pos (by norm_num) _
  have := grid_round_ge (|q|) _ 0 hu (by simp)
  simpa using this

/-- Rounding to binary32 does not step over an integer of magnitude at most
`2 ^ 24` from below. -/
theorem binary32_magnitude_le (q : ℚ) (M : ℤ) (hq : 0 < q) (h : q ≤ (M : ℚ))
    (hM : M ≤ 2 ^ 24) : binary32_magnitude q ≤ (M : ℚ) := by
  have habs : |q| = q := abs_of_pos hq
  have hMq : (M : ℚ) ≤ 2 ^ (24 : ℤ) := by
    have h24 : ((2 ^ 24 : ℤ) : ℚ) = 2 ^ (24 : ℤ) := by norm_num
    rw [← h24]
    exact_mod_cast hM
  have he : Int.log 2 q ≤ 24 :=
    log_two_le_of_lt q hq 24
      (lt_of_le_of_lt (h.trans hMq) (zpow_lt_zpow_right₀ (by norm_num) (by norm_num)))
  unfold binary32_magnitude binary32_step_exponent
  rw [habs]
  have hu : (0 : ℚ) < 2 ^ (max (Int.log 2 q - 23) (-149)) := zpow_pos (by norm_num) _
  by_cases h23 : Int.log 2 q ≤ 23
  · obtain ⟨n, hn⟩ := int_on_grid M (max (Int.log 2 q - 23) (-149)) (by omega)
    rw [← hn]
    exact grid_round_le q _ n hu (by rw [hn]; exact h)
  · have he24 : Int.log 2 q = 24 := by omega
    have hk : max (Int.log 2 q - 23) (-149) = 1 := by omega
    have h24 : (2 : ℚ) ^ (24 : ℤ) ≤ q := by
      have := two_zpow_log_le q hq
      rwa [he24] at this
    have hMeq : (M : ℚ) = ((2 ^ 23 : ℤ) : ℚ) * 2 ^ (1 : ℤ) := by
      have : (M : ℚ) = 2 ^ (24 : ℤ) := le_antisymm hMq (h24.trans h)
      rw [this]
      norm_num
    rw [hk] at hu ⊢
    rw [hMeq]
    exact grid_round_le q _ _ hu (by rw [← hMeq]; exact h)

/-- Rounding to binary32 does not step over a positive integer of magnitude at
most `2 ^ 24` from above. -/
theorem binary32_magnitude_ge (q : ℚ) (m : ℤ) (hm : 0 < m) (h : (m : ℚ) ≤ q)
    (hm24 : m ≤ 2 ^ 24) : (m : ℚ) ≤ binary32_magnitude q := by
  have hmq : (0 : ℚ) < m := by exact_mod_cast hm
  have hq : 0 < q := lt_of_lt_of_le hmq h
  have habs : |q| = q := abs_of_pos hq
  have hm24q : (m : ℚ) ≤ 2 ^ (24 : ℤ) := by
    have h24 : ((2 ^ 24 : ℤ) : ℚ) = 2 ^ (24 : ℤ) := by norm_num
    rw [← h24]
    exact_mod_cast hm24
  have he0 : 0 ≤ Int.log 2 q := by
    apply le_log_two_of_le q hq 0
    have : (1 : ℚ) ≤ m := by exact_mod_cast hm
    have h1 : (1 : ℚ) ≤ q := this.trans h
    simpa using h1
  unfold binary32_magnitude binary32_step_exponent
  rw [habs]
  have hu : (0 : ℚ) < 2 ^ (max (Int.log 2 q - 23) (-149)) := zpow_pos (by norm_num) _
  by_cases h23 : Int.log 2 q ≤ 23
  · obtain ⟨n, hn⟩ := int_on_grid m (max (Int.log 2 q - 23) (-149)) (by omega)
    rw [← hn]
    exact grid_round_ge q _ n hu (by rw [hn]; exact h)
  · have hk : max (Int.log 2 q - 23) (-149) = Int.log 2 q - 23 := by omega
    rw [hk] at hu ⊢
    have hgrid : ((2 ^ 23 : ℤ) : ℚ) * (2 : ℚ) ^ (Int.log 2 q - 23) = 2 ^ Int.log 2 q := by
      rw [zpow_sub₀ (by norm_num : (2 : ℚ) ≠ 0)]
      norm_num
      ring
    have hle : ((2 ^ 23 : ℤ) : ℚ) * (2 : ℚ) ^ (Int.log 2 q - 23) ≤ q := by
      rw [hgrid]
      exact two_zpow_log_le q hq
    have := grid_round_ge q _ _ hu hle
    rw [hgrid] at this
    have h24 : (2 : ℚ) ^ (24 : ℤ) ≤ 2 ^ Int.log 2 q :=
      zpow_le_zpow_right₀ (by norm_num) (by omega)
    exact (hm24q.trans h24).trans this

theorem binary32_magnitude_neg (q : ℚ) : binary32_magnitude (-q) = binary32_magnitude q := by
  unfold binary32_magnitude binary32_step_exponent
  rw [abs_neg]

/-- Rounding to binary32 keeps a value between two integers of magnitude at
most `2 ^ 24` between them, and is finite there. -/
theorem round_binary32_between (q : ℚ) (m M : ℤ) (h1 : (m : ℚ) ≤ q) (h2 : q ≤ (M : ℚ))
    (hm : -2 ^ 24 ≤ m) (hM : M ≤ 2 ^ 24) :
    ∃ r : ℚ, round_binary32 q = some r ∧ (m : ℚ) ≤ r ∧ r ≤ (M : ℚ) := by
  have hbig : ∀ x : ℚ, x ≤ 2 ^ (24 : ℤ) → ¬ ((2 : ℚ) ^ (128 : ℤ) ≤ x) := by
    intro x hx hc
    have : (2 : ℚ) ^ (24 : ℤ) < 2 ^ (128 : ℤ) := zpow_lt_zpow_right₀ (by norm_num) (by norm_num)
    linarith
  have hmM : (m : ℚ) ≤ (M : ℚ) := h1.trans h2
  have hmMz : m ≤ M := by exact_mod_cast hmM
  unfold round_binary32
  by_cases h0 : q = 0
  · rw [if_pos h0]
    exact ⟨0, rfl, by rw [← h0]; exact h1, by rw [← h0]; exact h2⟩
  · rw [if_neg h0]
    rcases lt_or_gt_of_ne h0 with hneg | hpos
    · -- negative value: mirror image of the positive case
      have hq' : 0 < -q := by linarith
      have hle : -q ≤ ((-m : ℤ) : ℚ) := by push_cast; linarith
      have hup := binary32_magnitude_le (-q) (-m) hq' hle (by omega)
      rw [binary32_magnitude_neg] at hup
      have hfin : ¬ ((2 : ℚ) ^ (128 : ℤ) ≤ binary32_magnitude q) := by
        apply hbig
        have : ((-m : ℤ) : ℚ) ≤ ((2 ^ 24 : ℤ) : ℚ) := by exact_mod_cast (by omega : -m ≤ 2 ^ 24)
        have h24 : ((2 ^ 24 : ℤ) : ℚ) = 2 ^ (24 : ℤ) := by norm_num
        linarith
      rw [if_neg hfin, if_neg (not_lt.2 (le_of_lt hneg))]
      refine ⟨_, rfl, ?_, ?_⟩
      · push_cast at hup
        linarith
      · by_cases hM0 : 0 ≤ M
        · have : (0 : ℚ) ≤ M := by exact_mod_cast hM0
          have := binary32_magnitude_nonneg q
          linarith
        · have hlow := binary32_magnitude_ge (-q) (-M) (by omega)
            (by push_cast; linarith) (by omega)
          rw [binary32_magnitude_neg] at hlow
          push_cast at hlow
          linarith
    · have hup := binary32_magnitude_le q M hpos h2 hM
      have hfin : ¬ ((2 : ℚ) ^ (128 : ℤ) ≤ binary32_magnitude q) := by
        apply hbig
        have : (M : ℚ) ≤ ((2 ^ 24 : ℤ) : ℚ) := by exact_mod_cast hM
        have h24 : ((2 ^ 24 : ℤ) : ℚ) = 2 ^ (24 : ℤ) := by norm_num
        linarith
      rw [if_neg hfin, if_pos hpos]
      refine ⟨_, rfl, ?_, hup⟩
      by_cases hm0 : 0 < m
      · exact binary32_magnitude_ge q m hm0 h1 (by omega)
      · have : (m : ℚ) ≤ 0 := by exact_mod_cast (by omega : m ≤ 0)
        have := binary32_magnitude_nonneg q
        linarith

/-- An `int` of magnitude at most `2 ^ 24` is converted to `float` exactly. -/
theorem float32_of_int_exact (n : ℤ) (h1 : -2 ^ 24 ≤ n) (h2 : n ≤ 2 ^ 24) :
    float32_of_int n = some (n : ℚ) := by
  obtain ⟨r, hr, hlo, hhi⟩ := round_binary32_between (n : ℚ) n n le_rfl le_rfl h1 h2
  rw [float32_of_int, hr, le_antisymm hhi hlo]
theorem round_half_even_le_add_half (x : ℚ) : (round_half_even x : ℚ) ≤ x + 1 / 2 := by
  have h1 : (⌊x⌋ : ℚ) ≤ x := Int.floor_le x
  unfold round_half_even
  split_ifs with a b c
  · linarith
  · push_cast; linarith
  · linarith
  · have : x - ⌊x⌋ = 1 / 2 := le_antisymm (not_lt.1 b) (not_lt.1 a)
    push_cast
    linarith

/-- The relative error of rounding a value of at least `1` to binary32 is at
most `2 ^ (-24)`. -/
theorem binary32_magnitude_le_relative (q : ℚ) (hq : 1 ≤ q) :
    binary32_magnitude q ≤ q + q / 2 ^ (24 : ℤ) := by
  have hq0 : 0 < q := by linarith
  have he0 : 0 ≤ Int.log 2 q := le_log_two_of_le q hq0 0 (by simpa using hq)
  have hk : max (Int.log 2 q - 23) (-149) = Int.log 2 q - 23 := by omega
  unfold binary32_magnitude binary32_step_exponent
  rw [abs_of_pos hq0, hk]
  have hu : (0 : ℚ) < 2 ^ (Int.log 2 q - 23) := zpow_pos (by norm_num) _
  have h1 := round_half_even_le_add_half (q / 2 ^ (Int.log 2 q - 23))
  have h2 : (round_half_even (q / 2 ^ (Int.log 2 q - 23)) : ℚ) * 2 ^ (Int.log 2 q - 23) ≤
      (q / 2 ^ (Int.log 2 q - 23) + 1 / 2) * 2 ^ (Int.log 2 q - 23) :=
    mul_le_mul_of_nonneg_right h1 (le_of_lt hu)
  have h3 : (q / 2 ^ (Int.log 2 q - 23) + 1 / 2) * 2 ^ (Int.log 2 q - 23) =
      q + 2 ^ (Int.log 2 q - 23) / 2 := by
    field_simp
    ring
  have h4 : (2 : ℚ) ^ (Int.log 2 q - 23) / 2 = 2 ^ Int.log 2 q / 2 ^ (24 : ℤ) := by
    rw [zpow_sub₀ (by norm_num : (2 : ℚ) ≠ 0)]
    norm_num
    ring
  have h5 : (2 : ℚ) ^ Int.log 2 q / 2 ^ (24 : ℤ) ≤ q / 2 ^ (24 : ℤ) :=
    div_le_div_of_nonneg_right (two_zpow_log_le q hq0) (by positivity)
  rw [h3, h4] at h2
  linarith

/-- The conversion to `float` of a non-negative product `X * a` with
`a + 1 <= D <= 2 ^ 24` and `X <= 2 ^ 24` is finite and at most `X * D`. -/
theorem round_binary32_product (X a D : ℤ) (hX : 0 ≤ X) (hX24 : X ≤ 2 ^ 24) (ha : 1 ≤ a)
    (haD : a + 1 ≤ D) (hD : D ≤ 2 ^ 24) :
    ∃ p : ℚ, round_binary32 ((X * a : ℤ) : ℚ) = some p ∧ 0 ≤ p ∧ p ≤ (X : ℚ) * D := by
  unfold round_binary32
  by_cases h0 : ((X * a : ℤ) : ℚ) = 0
  · rw [if_pos h0]
    refine ⟨0, rfl, le_rfl, ?_⟩
    have : (0 : ℚ) ≤ X := by exact_mod_cast hX
    have : (0 : ℚ) ≤ D := by exact_mod_cast (by omega : 0 ≤ D)
    positivity
  · rw [if_neg h0]
    have hXa : 0 < X * a := by
      have h1 : 0 ≤ X * a := Int.mul_nonneg hX (by omega)
      have h2 : X * a ≠ 0 := by
        intro h
        apply h0
        rw [h]
        rfl
      omega
    have hXpos : 0 < X := by
      rcases lt_or_eq_of_le hX with h | h
      · exact h
      · rw [← h] at hXa
        simp at hXa
    have hq1 : (1 : ℚ) ≤ ((X * a : ℤ) : ℚ) := by exact_mod_cast hXa
    have hrel := binary32_magnitude_le_relative _ hq1
    have hXq : (0 : ℚ) < X := by exact_mod_cast hXpos
    have haq : (a : ℚ) ≤ 2 ^ (24 : ℤ) := by
      have h24 : ((2 ^ 24 : ℤ) : ℚ) = 2 ^ (24 : ℤ) := by norm_num
      rw [← h24]
      exact_mod_cast (by omega : a ≤ 2 ^ 24)
    have haDq : (a : ℚ) + 1 ≤ D := by exact_mod_cast haD
    have hXD : (X : ℚ) * D ≤ 2 ^ (48 : ℤ) := by
      have h1 : (X : ℚ) ≤ 2 ^ (24 : ℤ) := by
        have h24 : ((2 ^ 24 : ℤ) : ℚ) = 2 ^ (24 : ℤ) := by norm_num
        rw [← h24]
        exact_mod_cast hX24
      have h2 : (D : ℚ) ≤ 2 ^ (24 : ℤ) := by
        have h24 : ((2 ^ 24 : ℤ) : ℚ) = 2 ^ (24 : ℤ) := by norm_num
        rw [← h24]
        exact_mod_cast hD
      have h3 : (0 : ℚ) ≤ D := by exact_mod_cast (by omega : 0 ≤ D)
      calc (X : ℚ) * D ≤ 2 ^ (24 : ℤ) * 2 ^ (24 : ℤ) :=
            mul_le_mul h1 h2 h3 (by positivity)
        _ = 2 ^ (48 : ℤ) := by norm_num
    have hbound : binary32_magnitude ((X * a : ℤ) : ℚ) ≤ (X : ℚ) * D := by
      have h1 : ((X * a : ℤ) : ℚ) / 2 ^ (24 : ℤ) ≤ X := by
        rw [div_le_iff₀ (by positivity)]
        push_cast
        exact mul_le_mul_of_nonneg_left haq (le_of_lt hXq)
      have h2 : ((X * a : ℤ) : ℚ) + X = X * (a + 1) := by push_cast; ring
      have h3 : (X : ℚ) * (a + 1) ≤ X * D := mul_le_mul_of_nonneg_left haDq (le_of_lt hXq)
      linarith
    have hfin : ¬ ((2 : ℚ) ^ (128 : ℤ) ≤ binary32_magnitude ((X * a : ℤ) : ℚ)) := by
      intro hc
      have : (2 : ℚ) ^ (48 : ℤ) < 2 ^ (128 : ℤ) :=
        zpow_lt_zpow_right₀ (by norm_num) (by norm_num)
      linarith
    rw [if_neg hfin, if_pos (by linarith)]
    exact ⟨_, rfl, binary32_magnitude_nonneg _, hbound⟩

theorem round_binary32_neg (q : ℚ) :
    round_binary32 (-q) = (round_binary32 q).map (fun r => -r) := by
  unfold round_binary32
  by_cases h0 : q = 0
  · simp [h0]
  · have h0' : -q ≠ 0 := neg_ne_zero.2 h0
    rw [if_neg h0, if_neg h0', binary32_magnitude_neg]
    by_cases hfin : (2 : ℚ) ^ (128 : ℤ) ≤ binary32_magnitude q
    · rw [if_pos hfin, if_pos hfin]
      rfl
    · rw [if_neg hfin, if_neg hfin]
      rcases lt_or_gt_of_ne h0 with hneg | hpos
      · rw [if_pos (by linarith : 0 < -q), if_neg (by linarith : ¬ 0 < q)]
        simp
      · rw [if_neg (by linarith : ¬ 0 < -q), if_pos hpos]
        simp
/-- In the binade of `2 ^ 24`, where the binary32 numbers are the even
integers, every value from `2 ^ 24` to `2 ^ 24 + 1` rounds to `2 ^ 24`. -/
theorem round_binary32_above_two_pow_24 (s : ℚ) (h1 : 16777216 ≤ s) (h2 : s ≤ 16777217) :
    round_binary32 s = some 16777216 := by
  have hs : 0 < s := by linarith
  have hlog : Int.log 2 s = 24 := by
    apply le_antisymm
    · exact log_two_le_of_lt s hs 24 (by norm_num; linarith)
    · exact le_log_two_of_le s hs 24 (by norm_num; linarith)
  have hfloor : ⌊s / 2⌋ = 8388608 := by
    rw [Int.floor_eq_iff]
    constructor
    · push_cast; linarith
    · push_cast; linarith
  have hrhe : round_half_even (s / 2) = 8388608 := by
    unfold round_half_even
    rw [hfloor]
    have hfrac : ¬ ((1 : ℚ) / 2 < s / 2 - ((8388608 : ℤ) : ℚ)) := by
      push_cast
      linarith
    split_ifs
    · rfl
    · rfl
    · omega
  have hmag : binary32_magnitude s = 16777216 := by
    unfold binary32_magnitude binary32_step_exponent
    rw [abs_of_pos hs, hlog]
    have hk : max ((24 : ℤ) - 23) (-149) = 1 := by decide
    rw [hk, zpow_one, hrhe]
    norm_num
  unfold round_binary32
  rw [if_neg (ne_of_gt hs), hmag, if_neg (by norm_num), if_pos hs]

/-- Claim C18 fails on the code: at the ordered vertices `(16777217, 0)`,
`(5, 1)`, `(16777218, 1000)` the `int` product is `1` (no overflow), the
conversion of `x0 = 2 ^ 24 + 1` to `float` gives `2 ^ 24`, the quotient
`1 / 1000` is lost in the addition, and the split point is
`Mx = 16777216`, below both `x0` and `x2`. -/
theorem split_x_binary32_outside :
    ((0 : ℤ) < 1 ∧ (1 : ℤ) < 1000) ∧
    split_x_binary32 ⟨16777217, 0, 5, 1, 16777218, 1000⟩ = some 16777216 ∧
    (16777216 : ℤ) < min 16777217 16777218 := by
  refine ⟨by decide, ?_, by norm_num⟩
  have hP : float32_of_int ((16777218 - 16777217) * (1 - 0)) = some 1 := by
    have := float32_of_int_exact 1 (by norm_num) (by norm_num)
    simpa using this
  have hD : float32_of_int (1000 - 0) = some 1000 := by
    have := float32_of_int_exact 1000 (by norm_num) (by norm_num)
    simpa using this
  have hx0 : float32_of_int 16777217 = some 16777216 := by
    unfold float32_of_int
    exact round_binary32_above_two_pow_24 _ (by norm_num) (by norm_num)
  obtain ⟨r, hr, hr0, hr1⟩ := round_binary32_between ((1 : ℚ) / 1000) 0 1
    (by norm_num) (by norm_num) (by norm_num) (by norm_num)
  have hdiv : float32_div (some 1) (some 1000) = some r := by
    simp only [float32_div]
    rw [if_neg (by norm_num)]
    exact hr
  have hsum : float32_add (some r) (some 16777216) = some 16777216 := by
    simp only [float32_add]
    exact round_binary32_above_two_pow_24 _ (by push_cast at hr0; linarith)
      (by push_cast at hr1; linarith)
  have htr : float_to_int (some 16777216) = some 16777216 := by
    simp only [float_to_int]
    have := trunc_intCast 16777216
    rw [show ((16777216 : ℤ) : ℚ) = 16777216 by norm_num] at this
    rw [this]
  unfold split_x_binary32
  rw [hP, hD, hx0, hdiv, hsum, htr]

/-- Claim C18 as amended: in the general case of `draw_filled_triangle`
(vertices ordered with `y0 < y1 < y2`), when `x0`, `x2`, `x2 - x0` and
`y2 - y0` are at most `2 ^ 24` in magnitude, the split point that the code
computes in binary32 is defined and satisfies
`min x0 x2 <= Mx <= max x0 x2`, for every sign of the coordinates. -/
theorem split_x_binary32_between (v : vertices) (h01 : v.y0 < v.y1) (h12 : v.y1 < v.y2)
    (hx0 : -2 ^ 24 ≤ v.x0 ∧ v.x0 ≤ 2 ^ 24) (hx2 : -2 ^ 24 ≤ v.x2 ∧ v.x2 ≤ 2 ^ 24)
    (hdx : -2 ^ 24 ≤ v.x2 - v.x0 ∧ v.x2 - v.x0 ≤ 2 ^ 24) (hdy : v.y2 - v.y0 ≤ 2 ^ 24) :
    ∃ Mx : ℤ, split_x_binary32 v = some Mx ∧ min v.x0 v.x2 ≤ Mx ∧ Mx ≤ max v.x0 v.x2 := by
  have hD := float32_of_int_exact (v.y2 - v.y0) (by omega) hdy
  have hX0 := float32_of_int_exact v.x0 hx0.1 hx0.2
  have hDq : (0 : ℚ) < ((v.y2 - v.y0 : ℤ) : ℚ) := by exact_mod_cast (by omega : 0 < v.y2 - v.y0)
  have hDne : ((v.y2 - v.y0 : ℤ) : ℚ) ≠ 0 := ne_of_gt hDq
  rcases le_total 0 (v.x2 - v.x0) with hpos | hneg
  · -- x0 <= x2
    obtain ⟨p, hp, hp0, hp1⟩ := round_binary32_product (v.x2 - v.x0) (v.y1 - v.y0)
      (v.y2 - v.y0) hpos hdx.2 (by omega) (by omega) hdy
    obtain ⟨q, hq, hq0, hq1⟩ := round_binary32_between (p / ((v.y2 - v.y0 : ℤ) : ℚ)) 0
      (v.x2 - v.x0) (by rw [Int.cast_zero]; exact div_nonneg hp0 (le_of_lt hDq))
      (by rw [div_le_iff₀ hDq]; exact hp1) (by norm_num) hdx.2
    obtain ⟨r, hr, hr0, hr1⟩ := round_binary32_between (q + (v.x0 : ℚ)) v.x0 v.x2
      (by push_cast at hq0; linarith) (by push_cast at hq1; linarith) hx0.1 hx2.2
    refine ⟨trunc r, ?_, ?_⟩
    · simp only [split_x_binary32, float32_of_int] at hD hX0 ⊢
      simp only [hp, hD, hX0, float32_div, float32_add, if_neg hDne, hq, hr, float_to_int]
    · rw [min_eq_left (by omega), max_eq_right (by omega)]
      exact trunc_between r _ _ hr0 hr1
  · -- x2 <= x0
    obtain ⟨p, hp, hp0, hp1⟩ := round_binary32_product (-(v.x2 - v.x0)) (v.y1 - v.y0)
      (v.y2 - v.y0) (by omega) (by omega) (by omega) (by omega) hdy
    have hp' : round_binary32 (((v.x2 - v.x0) * (v.y1 - v.y0) : ℤ) : ℚ) = some (-p) := by
      have h : (((v.x2 - v.x0) * (v.y1 - v.y0) : ℤ) : ℚ) =
          -(((-(v.x2 - v.x0)) * (v.y1 - v.y0) : ℤ) : ℚ) := by push_cast; ring
      rw [h, round_binary32_neg, hp]
      rfl
    obtain ⟨q, hq, hq0, hq1⟩ := round_binary32_between (-p / ((v.y2 - v.y0 : ℤ) : ℚ))
      (v.x2 - v.x0) 0
      (by
        rw [le_div_iff₀ hDq]
        push_cast at hp1 ⊢
        linarith)
      (by
        rw [Int.cast_zero]
        exact div_nonpos_of_nonpos_of_nonneg (by linarith) (le_of_lt hDq))
      hdx.1 (by norm_num)
    obtain ⟨r, hr, hr0, hr1⟩ := round_binary32_between (q + (v.x0 : ℚ)) v.x2 v.x0
      (by push_cast at hq0; linarith) (by push_cast at hq1; linarith) hx2.1 hx0.2
    refine ⟨trunc r, ?_, ?_⟩
    · simp only [split_x_binary32, float32_of_int] at hD hX0 ⊢
      simp only [hp', hD, hX0, float32_div, float32_add, if_neg hDne, hq, hr, float_to_int]
    · rw [min_eq_right (by omega), max_eq_left (by omega)]
      exact trunc_between r _ _ hr0 hr1

theorem split_x_binary32_between_witness :
    ((0 : ℤ) < 2 ∧ (2 : ℤ) < 5) ∧
    ((-2 ^ 24 : ℤ) ≤ 0 ∧ (0 : ℤ) ≤ 2 ^ 24) ∧ ((-2 ^ 24 : ℤ) ≤ -3 ∧ (-3 : ℤ) ≤ 2 ^ 24) ∧
    ((-2 ^ 24 : ℤ) ≤ -3 - 0 ∧ (-3 : ℤ) - 0 ≤ 2 ^ 24) ∧ ((5 : ℤ) - 0 ≤ 2 ^ 24) ∧
    ∃ Mx : ℤ, split_x_binary32 ⟨0, 0, 10, 2, -3, 5⟩ = some Mx ∧
      min (0 : ℤ) (-3) ≤ Mx ∧ Mx ≤ max (0 : ℤ) (-3) :=
  ⟨by decide, by norm_num, by norm_num, by norm_num, by norm_num,
    split_x_binary32_between ⟨0, 0, 10, 2, -3, 5⟩ (by decide) (by decide) (by norm_num)
      (by norm_num) (by norm_num) (by norm_num)⟩

theorem getLast?_map_range_succ {α : Type} (f : ℕ → α) (n : ℕ) :
    ((List.range (n + 1)).map f).getLast? = some (f n) := by
  rw [List.range_succ, List.map_append]
  simp

theorem countP_scanline_rows_up (a b p q : ℚ) (y : ℤ) (color : ℕ) (r : ℤ) (n : ℕ) :
    ((List.range n).map (scanline a b p q y 1 color)).countP (fun l => decide (l.y0 = r)) =
      if y ≤ r ∧ r < y + n then 1 else 0 := by
  induction n with
  | zero =>
    have : ¬ (y ≤ r ∧ r < y + ((0 : ℕ) : ℤ)) := by omega
    rw [if_neg this]
    rfl
  | succ n ih =>
    rw [List.range_succ, List.map_append, List.countP_append, ih]
    simp only [List.map_cons, List.map_nil, List.countP_cons, List.countP_nil, scanline,
      mul_one, decide_eq_true_eq, zero_add]
    split_ifs <;> omega

theorem countP_scanline_rows_down (a b p q : ℚ) (y : ℤ) (color : ℕ) (r : ℤ) (n : ℕ) :
    ((List.range n).map (scanline a b p q y (-1) color)).countP (fun l => decide (l.y0 = r)) =
      if y - n < r ∧ r ≤ y then 1 else 0 := by
  induction n with
  | zero =>
    have : ¬ (y - ((0 : ℕ) : ℤ) < r ∧ r ≤ y) := by omega
    rw [if_neg this]
    rfl
  | succ n ih =>
    rw [List.range_succ, List.map_append, List.countP_append, ih]
    simp only [List.map_cons, List.map_nil, List.countP_cons, List.countP_nil, scanline,
      decide_eq_true_eq, zero_add]
    split_ifs <;> omega

/-- Claim C19: in the general case of `draw_filled_triangle` (vertices ordered
with `y0 < y1 < y2`) the calls are those of the flat-bottom half followed by
those of the flat-top half; the last call of each half is the row `y1` from
`x1` to `Mx`, so the row `y1` is emitted twice with the same endpoints, every
other row of `y0 .. y2` is emitted once, and the number of `draw_line` calls
is `y2 - y0 + 2`. -/
theorem draw_filled_triangle_middle_row (x0 y0 x1 y1 x2 y2 : ℤ) (color : ℕ) (v : vertices)
    (hv : sort_vertices ⟨x0, y0, x1, y1, x2, y2⟩ = v) (h01 : v.y0 < v.y1) (h12 : v.y1 < v.y2) :
    ∃ (Mx : ℤ) (l1 l2 : List draw_line_call),
      split_x v = some Mx ∧
      (fill_flat_bottom_triangle v.x0 v.y0 v.x1 v.y1 Mx v.y1 color).lines = some l1 ∧
      (fill_flat_top_triangle v.x1 v.y1 Mx v.y1 v.x2 v.y2 color).lines = some l2 ∧
      (draw_filled_triangle x0 y0 x1 y1 x2 y2 color).lines = some (l1 ++ l2) ∧
      l1.getLast? = some ⟨v.x1, v.y1, Mx, v.y1, color⟩ ∧
      l2.getLast? = some ⟨v.x1, v.y1, Mx, v.y1, color⟩ ∧
      (l1 ++ l2).length = (v.y2 - v.y0 + 2).toNat ∧
      (l1 ++ l2).countP (fun l => decide (l.y0 = v.y1)) = 2 ∧
      ∀ y : ℤ, v.y0 ≤ y → y ≤ v.y2 → y ≠ v.y1 →
        (l1 ++ l2).countP (fun l => decide (l.y0 = y)) = 1 := by
  obtain ⟨n1, hn1⟩ := Int.eq_ofNat_of_zero_le (by omega : 0 ≤ v.y1 - v.y0)
  obtain ⟨n2, hn2⟩ := Int.eq_ofNat_of_zero_le (by omega : 0 ≤ v.y2 - v.y1)
  have hc1 : (v.y1 - v.y0 + 1).toNat = n1 + 1 := by omega
  have hc2 : (v.y2 - v.y1 + 1).toNat = n2 + 1 := by omega
  have hq1 : ((v.y1 - v.y0 : ℤ) : ℚ) = (n1 : ℚ) := by rw [hn1]; push_cast; rfl
  have hq2 : ((v.y2 - v.y1 : ℤ) : ℚ) = (n2 : ℚ) := by rw [hn2]; push_cast; rfl
  have hn1' : (n1 : ℚ) ≠ 0 := by
    have : n1 ≠ 0 := by omega
    exact_mod_cast this
  have hn2' : (n2 : ℚ) ≠ 0 := by
    have : n2 ≠ 0 := by omega
    exact_mod_cast this
  have hsplit := split_x_eq v (by omega)
  set Mx := trunc ((v.x0 : ℚ) + ((v.x2 : ℚ) - v.x0) * ((v.y1 : ℚ) - v.y0) / ((v.y2 : ℚ) - v.y0))
    with hMx
  have hl1 := fill_flat_bottom_lines v.x0 v.y0 v.x1 v.y1 Mx v.y1 color h01 h01
  have hl2 := fill_flat_top_lines v.x1 v.y1 Mx v.y1 v.x2 v.y2 color h12 h12
  rw [hc1, hq1] at hl1
  rw [hc2, hq2] at hl2
  have hdft : (draw_filled_triangle x0 y0 x1 y1 x2 y2 color).lines = some
      ((List.range (n1 + 1)).map (scanline v.x0 v.x0 (((v.x1 - v.x0 : ℤ) : ℚ) / n1)
          (((Mx - v.x0 : ℤ) : ℚ) / n1) v.y0 1 color) ++
        (List.range (n2 + 1)).map (scanline v.x2 v.x2 (((v.x1 - v.x2 : ℤ) : ℚ) / n2)
          (((Mx - v.x2 : ℤ) : ℚ) / n2) v.y2 (-1) color)) := by
    unfold draw_filled_triangle
    rw [hv]
    simp only [if_neg (by omega : ¬ v.y1 = v.y2), if_neg (by omega : ¬ v.y0 = v.y1), hsplit,
      fill_result.append, hl1, hl2, List.nil_append]
  refine ⟨Mx, _, _, hsplit, hl1, hl2, hdft, ?_, ?_, ?_, ?_, ?_⟩
  · rw [getLast?_map_range_succ]
    simp only [scanline, mul_one, Int.cast_sub]
    have a1 : (v.x0 : ℚ) + (n1 : ℚ) * (((v.x1 : ℚ) - v.x0) / n1) = ((v.x1 : ℤ) : ℚ) := by
      field_simp
    have a2 : (v.x0 : ℚ) + (n1 : ℚ) * (((Mx : ℚ) - v.x0) / n1) = ((Mx : ℤ) : ℚ) := by
      field_simp
    have hy : v.y0 + (n1 : ℤ) = v.y1 := by omega
    rw [a1, a2, trunc_intCast, trunc_intCast, hy]
  · rw [getLast?_map_range_succ]
    simp only [scanline, Int.cast_sub]
    have a1 : (v.x2 : ℚ) + (n2 : ℚ) * (((v.x1 : ℚ) - v.x2) / n2) = ((v.x1 : ℤ) : ℚ) := by
      field_simp
    have a2 : (v.x2 : ℚ) + (n2 : ℚ) * (((Mx : ℚ) - v.x2) / n2) = ((Mx : ℤ) : ℚ) := by
      field_simp
    have hy : v.y2 + (n2 : ℤ) * -1 = v.y1 := by omega
    rw [a1, a2, trunc_intCast, trunc_intCast, hy]
  · simp only [List.length_append, List.length_map, List.length_range]
    omega
  · rw [List.countP_append, countP_scanline_rows_up, countP_scanline_rows_down]
    rw [if_pos (by push_cast; omega), if_pos (by push_cast; omega)]
  · intro y hy0 hy2 hne
    rw [List.countP_append, countP_scanline_rows_up, countP_scanline_rows_down]
    by_cases hlt : y < v.y1
    · rw [if_pos (by push_cast; omega), if_neg (by push_cast; omega)]
    · rw [if_neg (by push_cast; omega), if_pos (by push_cast; omega)]

theorem draw_filled_triangle_middle_row_witness :
    sort_vertices ⟨-3, 5, 10, 2, 0, 0⟩ = ⟨0, 0, 10, 2, -3, 5⟩ ∧ (0 : ℤ) < 2 ∧ (2 : ℤ) < 5 ∧
    ∃ ls : List draw_line_call,
      (draw_filled_triangle (-3) 5 10 2 0 0 7).lines = some ls ∧ ls.length = 7 ∧
      ls.countP (fun l => decide (l.y0 = 2)) = 2 := by
  have hv : sort_vertices ⟨-3, 5, 10, 2, 0, 0⟩ = ⟨0, 0, 10, 2, -3, 5⟩ := by decide
  obtain ⟨Mx, l1, l2, -, -, -, hl, -, -, hlen, hcount, -⟩ :=
    draw_filled_triangle_middle_row (-3) 5 10 2 0 0 7 _ hv (by decide) (by decide)
  exact ⟨hv, by decide, by decide, l1 ++ l2, hl, hlen, hcount⟩
theorem sort_vertices_of_distinct (x0 y0 x1 y1 x2 y2 : ℤ) (h01 : y0 ≠ y1) (h12 : y1 ≠ y2)
    (h02 : y0 ≠ y2) :
    sort_vertices ⟨x0, y0, x2, y2, x1, y1⟩ = sort_vertices ⟨x0, y0, x1, y1, x2, y2⟩ ∧
    sort_vertices ⟨x1, y1, x0, y0, x2, y2⟩ = sort_vertices ⟨x0, y0, x1, y1, x2, y2⟩ ∧
    sort_vertices ⟨x1, y1, x2, y2, x0, y0⟩ = sort_vertices ⟨x0, y0, x1, y1, x2, y2⟩ ∧
    sort_vertices ⟨x2, y2, x0, y0, x1, y1⟩ = sort_vertices ⟨x0, y0, x1, y1, x2, y2⟩ ∧
    sort_vertices ⟨x2, y2, x1, y1, x0, y0⟩ = sort_vertices ⟨x0, y0, x1, y1, x2, y2⟩ := by
  simp only [sort_vertices, swap_0_1, swap_1_2, int_swap]
  refine ⟨?_, ?_, ?_, ?_, ?_⟩ <;> split_ifs <;> simp_all <;> omega

/-- Claim C20: when the three `y` are pairwise distinct the run of
`draw_filled_triangle` does not depend on the order in which the vertices are
passed: each of the six orders of the three vertices gives the same divisions
and the same sequence of `draw_line` calls (rows, endpoints and colour). -/
theorem draw_filled_triangle_order_independent (x0 y0 x1 y1 x2 y2 : ℤ) (color : ℕ)
    (h01 : y0 ≠ y1) (h12 : y1 ≠ y2) (h02 : y0 ≠ y2) :
    draw_filled_triangle x0 y0 x2 y2 x1 y1 color = draw_filled_triangle x0 y0 x1 y1 x2 y2 color ∧
    draw_filled_triangle x1 y1 x0 y0 x2 y2 color = draw_filled_triangle x0 y0 x1 y1 x2 y2 color ∧
    draw_filled_triangle x1 y1 x2 y2 x0 y0 color = draw_filled_triangle x0 y0 x1 y1 x2 y2 color ∧
    draw_filled_triangle x2 y2 x0 y0 x1 y1 color = draw_filled_triangle x0 y0 x1 y1 x2 y2 color ∧
    draw_filled_triangle x2 y2 x1 y1 x0 y0 color = draw_filled_triangle x0 y0 x1 y1 x2 y2 color := by
  obtain ⟨e1, e2, e3, e4, e5⟩ := sort_vertices_of_distinct x0 y0 x1 y1 x2 y2 h01 h12 h02
  unfold draw_filled_triangle
  rw [e1, e2, e3, e4, e5]
  exact ⟨rfl, rfl, rfl, rfl, rfl⟩

theorem draw_filled_triangle_order_independent_witness :
    ((0 : ℤ) ≠ 2 ∧ (2 : ℤ) ≠ 5 ∧ (0 : ℤ) ≠ 5) ∧
    draw_filled_triangle (-3) 5 10 2 0 0 7 = draw_filled_triangle 0 0 10 2 (-3) 5 7 ∧
    draw_filled_triangle 10 2 0 0 (-3) 5 7 = draw_filled_triangle 0 0 10 2 (-3) 5 7 :=
  ⟨⟨by decide, by decide, by decide⟩,
    (draw_filled_triangle_order_independent 0 0 10 2 (-3) 5 7
      (by decide) (by decide) (by decide)).2.2.2.2,
    (draw_filled_triangle_order_independent 0 0 10 2 (-3) 5 7
      (by decide) (by decide) (by decide)).2.1⟩

end Rasterizer
